import Mathlib

/-!
Verification development for the Unisolation Tracker (src/app/src/App.tsx).

The TypeScript source is shallowly embedded below.  JavaScript strings are
modelled as Lean strings (sequences of unicode scalar values), JS objects
with a fixed shape as structures, the insertion-ordered `completed` object
as an association list, and the browser store as a function
String -> Option String.  Platform primitives used by the code
(encodeURIComponent, unescape, btoa, atob, escape, decodeURIComponent,
JSON.stringify / JSON.parse on the fixed TrackerState shape) are modelled
by executable Lean functions following their standard semantics.
-/

namespace UnisoV2

/-- Step identifiers, from the STEPS catalog (App.tsx lines 18-27). -/
inductive StepId where
  | started
  | validated
  | it_sent
  | it_ok
  | hob_sent
  | hob_ok
  | unisolate
  | done
deriving DecidableEq

/-- The ordered id list, STEPS.map(s => s.id). -/
def stepOrder : List StepId :=
  [.started, .validated, .it_sent, .it_ok, .hob_sent, .hob_ok, .unisolate, .done]

/-- JSON name of each step id (the literal id strings of STEPS). -/
def stepStr : StepId → String
  | .started => "started"
  | .validated => "validated"
  | .it_sent => "it_sent"
  | .it_ok => "it_ok"
  | .hob_sent => "hob_sent"
  | .hob_ok => "hob_ok"
  | .unisolate => "unisolate"
  | .done => "done"

/-- Display label of each step (STEPS labels). -/
def stepLabel : StepId → String
  | .started => "Unisolation started"
  | .validated => "Inputs validated"
  | .it_sent => "IT email sent"
  | .it_ok => "IT approved"
  | .hob_sent => "HOB email sent"
  | .hob_ok => "HOB approved"
  | .unisolate => "Unisolation requested"
  | .done => "Completed"

/-- Roles (App.tsx line 31). -/
inductive Role where
  | operator
  | it
  | hob
deriving DecidableEq

/-- The string form of a role, as serialized to JSON. -/
def roleStr : Role → String
  | .operator => "operator"
  | .it => "it"
  | .hob => "hob"

/-- An audit log entry (the log field element type, App.tsx line 42). -/
structure LogEntry where
  ts : String
  who : Role
  what : String
deriving DecidableEq

/-- The TrackerState aggregate (App.tsx lines 34-44).  The optional
fields machineName / upn / bu / readonly are always present on every
state the app constructs (initial, setState spreads, reset), so they are
modelled as plain String / Bool.  completed is a JS object used as an
insertion-ordered map from step id to timestamp, modelled as an
association list in insertion order. -/
structure TrackerState where
  incidentId : String
  machineId : String
  machineName : String
  upn : String
  bu : String
  active : StepId
  completed : List (StepId × String)
  log : List LogEntry
  readonly : Bool
deriving DecidableEq

/-- DEFAULT_STEP (App.tsx line 46). -/
def DEFAULT_STEP : StepId := .started

/-- toKey (App.tsx line 48). -/
def toKey (i m : String) : String := "unisov2:" ++ i ++ ":" ++ m

/-- Lookup of a step in the completed object (s.completed[id]). -/
def getTs : List (StepId × String) → StepId → Option String
  | [], _ => none
  | p :: rest, id => if p.1 = id then some p.2 else getTs rest id

/-- The completed update \x7b...s.completed, [id]: s.completed[id] || ts\x7d
(App.tsx line 103).  If the key is present its value is replaced in place
by (old || ts); JS || takes ts when the old value is the empty string.
If the key is absent the pair is appended (JS insertion order). -/
def setCompleted (m : List (StepId × String)) (id : StepId) (ts : String) :
    List (StepId × String) :=
  match getTs m id with
  | some v => m.map (fun p => if p.1 = id then (p.1, if v = "" then ts else v) else p)
  | none => m ++ [(id, ts)]

/-- The log message note || "Moved to: id" (App.tsx line 104). -/
def noteOr (note : Option String) (id : StepId) : String :=
  match note with
  | some nt => if nt = "" then "Moved to: " ++ stepStr id else nt
  | none => "Moved to: " ++ stepStr id

/-- setActive (App.tsx lines 97-106): no-op when readonly, otherwise sets
active, records the first-arrival timestamp in completed, appends a log
entry.  now stands for new Date().toISOString(). -/
def setActive (id : StepId) (who : Role) (note : Option String) (now : String)
    (s : TrackerState) : TrackerState :=
  if s.readonly then s
  else
    { s with
      active := id
      completed := setCompleted s.completed id now
      log := s.log ++ [⟨now, who, noteOr note id⟩] }

/-- nextFor (App.tsx lines 133-144): the role-gated next step. -/
def nextFor (r : Role) (active : StepId) : Option StepId :=
  let i := stepOrder.indexOf active
  match stepOrder.get? (i + 1) with
  | none => none
  | some nxt =>
    if r = Role.operator then some nxt
    else if r = Role.it ∧ (active = StepId.it_sent ∨ active = StepId.it_ok ∨ active = StepId.validated) then
      some StepId.it_ok
    else if r = Role.hob ∧ (active = StepId.hob_sent ∨ active = StepId.hob_ok ∨ active = StepId.it_ok) then
      some StepId.hob_ok
    else none

/-- The audit message built in advance (App.tsx line 150). -/
def advanceMsg (r : Role) (n : StepId) : String :=
  roleStr r ++ " advanced → " ++ stepLabel n

/-- advance (App.tsx lines 146-151): when nextFor yields nothing, alert
"No permitted next step for this role." and leave the state alone;
otherwise setActive to the permitted step. -/
def advanceOp (r : Role) (now : String) (s : TrackerState) : TrackerState :=
  match nextFor r s.active with
  | none => s
  | some n => setActive n r (some (advanceMsg r n)) now s

/-- The five directly editable context fields (the Context inputs,
App.tsx lines 224-240). -/
inductive FieldName where
  | incidentId
  | machineId
  | machineName
  | upn
  | bu
deriving DecidableEq

/-- The field-edit handlers setState(s => (\x7b...s, field: value\x7d)):
a plain spread update with no readonly check and no audit entry. -/
def setField (f : FieldName) (v : String) (s : TrackerState) : TrackerState :=
  match f with
  | .incidentId => { s with incidentId := v }
  | .machineId => { s with machineId := v }
  | .machineName => { s with machineName := v }
  | .upn => { s with upn := v }
  | .bu => { s with bu := v }

/-- Reads back a context field. -/
def getField (f : FieldName) (s : TrackerState) : String :=
  match f with
  | .incidentId => s.incidentId
  | .machineId => s.machineId
  | .machineName => s.machineName
  | .upn => s.upn
  | .bu => s.bu

/-- reset (App.tsx lines 116-130).  confirmed models the result of the
confirm("Reset tracker?") dialog: declining returns without change; on
confirmation the five context fields are kept and active / completed /
log / readonly are rebuilt.  There is no readonly check. -/
def resetOp (confirmed : Bool) (now : String) (s : TrackerState) : TrackerState :=
  if confirmed then
    { incidentId := s.incidentId
      machineId := s.machineId
      machineName := s.machineName
      upn := s.upn
      bu := s.bu
      active := DEFAULT_STEP
      completed := [(StepId.started, now)]
      log := [⟨now, Role.operator, "Tracker reset"⟩]
      readonly := false }
  else s

/-- The Partial TrackerState seed produced by bootstrap (App.tsx line 50). -/
structure Seed where
  incidentId : Option String
  machineId : Option String
  machineName : Option String
  upn : Option String
  bu : Option String
  active : Option StepId
  completed : Option (List (StepId × String))
  log : Option (List LogEntry)
  readonly : Option Bool
deriving DecidableEq

/-- A full state viewed as a seed with every field present (the result of
JSON.parse on a serialized full state). -/
def seedOfState (s : TrackerState) : Seed :=
  { incidentId := some s.incidentId
    machineId := some s.machineId
    machineName := some s.machineName
    upn := some s.upn
    bu := some s.bu
    active := some s.active
    completed := some s.completed
    log := some s.log
    readonly := some s.readonly }

/-- The URL-context-only seed (App.tsx line 65): the five query fields,
each already defaulted to the empty string, and no progress fields. -/
def urlSeed (i m u b n : String) : Seed :=
  { incidentId := some i
    machineId := some m
    machineName := some n
    upn := some u
    bu := some b
    active := none
    completed := none
    log := none
    readonly := none }

/-- initial (App.tsx lines 68-82): builds the complete starting state
from the bootstrap seed.  The five context fields use seed.x || "";
readonly uses !!seed.readonly; active, completed and log are built fresh
unconditionally. -/
def initialFrom (seed : Seed) (now : String) : TrackerState :=
  { incidentId := seed.incidentId.getD ""
    machineId := seed.machineId.getD ""
    machineName := seed.machineName.getD ""
    upn := seed.upn.getD ""
    bu := seed.bu.getD ""
    active := DEFAULT_STEP
    completed := [(StepId.started, now)]
    log := [⟨now, Role.operator, "Tracker created"⟩]
    readonly := seed.readonly.getD false }

/-! ### Platform text primitives

The share / bootstrap codec (App.tsx lines 54 and 110) is
btoa(unescape(encodeURIComponent(JSON.stringify(snap)))) and its inverse
JSON.parse(decodeURIComponent(escape(atob(hash)))).  The browser
primitives are modelled here on lists of characters (unicode scalar
values) and lists of byte values. -/

/-- Standard UTF-8 encoding of one scalar value. -/
def utf8Char (c : Char) : List Nat :=
  if c.toNat < 0x80 then [c.toNat]
  else if c.toNat < 0x800 then [0xC0 + c.toNat / 64, 0x80 + c.toNat % 64]
  else if c.toNat < 0x10000 then
    [0xE0 + c.toNat / 4096, 0x80 + c.toNat / 64 % 64, 0x80 + c.toNat % 64]
  else
    [0xF0 + c.toNat / 0x40000, 0x80 + c.toNat / 4096 % 64, 0x80 + c.toNat / 64 % 64,
      0x80 + c.toNat % 64]

/-- UTF-8 encoding of a scalar string. -/
def utf8Encode (s : List Char) : List Nat := s.flatMap utf8Char

/-- Decodes one scalar from a lead byte and the remaining bytes,
rejecting stray continuation bytes, overlong forms, surrogates and
out-of-range values, as decodeURIComponent does. -/
def utf8DecodeOne (b : Nat) (rest : List Nat) : Option (Char × List Nat) :=
  if b < 0x80 then some (Char.ofNat b, rest)
  else if b < 0xC2 then none
  else if b < 0xE0 then
    match rest with
    | b2 :: rest2 =>
      if 0x80 ≤ b2 ∧ b2 < 0xC0 then some (Char.ofNat ((b - 0xC0) * 64 + (b2 - 0x80)), rest2)
      else none
    | [] => none
  else if b < 0xF0 then
    match rest with
    | b2 :: b3 :: rest3 =>
      if (0x80 ≤ b2 ∧ b2 < 0xC0) ∧ (0x80 ≤ b3 ∧ b3 < 0xC0) then
        if 0x800 ≤ (b - 0xE0) * 4096 + (b2 - 0x80) * 64 + (b3 - 0x80) ∧
            ((b - 0xE0) * 4096 + (b2 - 0x80) * 64 + (b3 - 0x80) < 0xD800 ∨
              0xDFFF < (b - 0xE0) * 4096 + (b2 - 0x80) * 64 + (b3 - 0x80)) then
          some (Char.ofNat ((b - 0xE0) * 4096 + (b2 - 0x80) * 64 + (b3 - 0x80)), rest3)
        else none
      else none
    | _ => none
  else if b < 0xF5 then
    match rest with
    | b2 :: b3 :: b4 :: rest4 =>
      if (0x80 ≤ b2 ∧ b2 < 0xC0) ∧ (0x80 ≤ b3 ∧ b3 < 0xC0) ∧ (0x80 ≤ b4 ∧ b4 < 0xC0) then
        if 0x10000 ≤ (b - 0xF0) * 0x40000 + (b2 - 0x80) * 4096 + (b3 - 0x80) * 64 + (b4 - 0x80) ∧
            (b - 0xF0) * 0x40000 + (b2 - 0x80) * 4096 + (b3 - 0x80) * 64 + (b4 - 0x80) <
              0x110000 then
          some
            (Char.ofNat ((b - 0xF0) * 0x40000 + (b2 - 0x80) * 4096 + (b3 - 0x80) * 64 +
              (b4 - 0x80)), rest4)
        else none
      else none
    | _ => none
  else none

/-- Strict UTF-8 decoding of a byte list, by fueled iteration of
utf8DecodeOne (one unit of fuel per scalar; each scalar consumes at
least one byte, so the list length is enough fuel). -/
def utf8DecodeF : Nat → List Nat → Option (List Char)
  | _, [] => some []
  | 0, _ :: _ => none
  | fuel + 1, b :: rest =>
    match utf8DecodeOne b rest with
    | none => none
    | some (c, rest2) => (utf8DecodeF fuel rest2).map (fun cs => c :: cs)

/-- Strict UTF-8 decoding of a byte list. -/
def utf8Decode (bs : List Nat) : Option (List Char) := utf8DecodeF bs.length bs

/-- The uppercase hex digit of a value below 16. -/
def hexDig (n : Nat) : Char := Char.ofNat (if n < 10 then 48 + n else 55 + n)

/-- Reads back one hex digit, upper or lower case. -/
def hexVal (c : Char) : Option Nat :=
  if 48 ≤ c.toNat ∧ c.toNat ≤ 57 then some (c.toNat - 48)
  else if 65 ≤ c.toNat ∧ c.toNat ≤ 70 then some (c.toNat - 55)
  else if 97 ≤ c.toNat ∧ c.toNat ≤ 102 then some (c.toNat - 87)
  else none

/-- The characters encodeURIComponent leaves unescaped:
A-Z a-z 0-9 - _ . ! ~ * apostrophe ( ). -/
def IsUnres (n : Nat) : Prop :=
  (65 ≤ n ∧ n ≤ 90) ∨ (97 ≤ n ∧ n ≤ 122) ∨ (48 ≤ n ∧ n ≤ 57) ∨
    n = 45 ∨ n = 95 ∨ n = 46 ∨ n = 33 ∨ n = 126 ∨ n = 42 ∨ n = 39 ∨ n = 40 ∨ n = 41

instance (n : Nat) : Decidable (IsUnres n) := by unfold IsUnres; infer_instance

/-- A percent escape of one byte. -/
def pctByte (b : Nat) : List Char := ['%', hexDig (b / 16), hexDig (b % 16)]

/-- encodeURIComponent: unreserved characters stay, everything else is
percent-escaped per UTF-8 byte. -/
def encodeURIComponentC : List Char → List Char
  | [] => []
  | c :: rest =>
    (if IsUnres c.toNat then [c] else (utf8Char c).flatMap pctByte) ++ encodeURIComponentC rest

/-- One scan step of unescape at a character: yields the emitted
characters and the remaining input.  A %uXXXX or %XX escape becomes one
character (a %uXXXX naming an invalid scalar would be a lone UTF-16 unit
in JS, which has no Char counterpart; Char.ofNat then yields the null
character — that case never arises from encodeURIComponent output, whose
escapes are %XX).  A malformed escape emits the percent sign and leaves
the following characters to be rescanned. -/
def unescStep (c : Char) (rest : List Char) : List Char × List Char :=
  if c = '%' then
    match rest with
    | [] => (['%'], [])
    | c1 :: r1 =>
      if c1 = 'u' then
        match r1 with
        | h1 :: h2 :: h3 :: h4 :: r4 =>
          match hexVal h1, hexVal h2, hexVal h3, hexVal h4 with
          | some a, some b, some x, some d =>
            ([Char.ofNat (a * 4096 + b * 256 + x * 16 + d)], r4)
          | _, _, _, _ => (['%'], c1 :: r1)
        | _ => (['%'], c1 :: r1)
      else
        match r1 with
        | h2 :: r2 =>
          match hexVal c1, hexVal h2 with
          | some a, some b => ([Char.ofNat (16 * a + b)], r2)
          | _, _ => (['%'], c1 :: r1)
        | [] => (['%'], c1 :: r1)
  else ([c], rest)

/-- Fueled iteration of unescStep (each step consumes at least one
character, so the input length is enough fuel). -/
def unescRun : Nat → List Char → List Char
  | 0, _ => []
  | _, [] => []
  | fuel + 1, c :: rest => (unescStep c rest).1 ++ unescRun fuel (unescStep c rest).2

/-- unescape. -/
def unescapeC (cs : List Char) : List Char := unescRun cs.length cs

/-- The base64 alphabet. -/
def c6 (n : Nat) : Char :=
  if n < 26 then Char.ofNat (65 + n)
  else if n < 52 then Char.ofNat (71 + n)
  else if n < 62 then Char.ofNat (n - 4)
  else if n = 62 then '+'
  else '/'

/-- Reads back one base64 alphabet character. -/
def v6 (c : Char) : Option Nat :=
  if 65 ≤ c.toNat ∧ c.toNat ≤ 90 then some (c.toNat - 65)
  else if 97 ≤ c.toNat ∧ c.toNat ≤ 122 then some (c.toNat - 71)
  else if 48 ≤ c.toNat ∧ c.toNat ≤ 57 then some (c.toNat + 4)
  else if c.toNat = 43 then some 62
  else if c.toNat = 47 then some 63
  else none

/-- Base64 encoding of a byte list, with = padding. -/
def b64encode : List Nat → List Char
  | [] => []
  | [a] => [c6 (a / 4), c6 (a % 4 * 16), '=', '=']
  | [a, b] => [c6 (a / 4), c6 (a % 4 * 16 + b / 16), c6 (b % 16 * 4), '=']
  | a :: b :: c :: rest =>
    c6 (a / 4) :: c6 (a % 4 * 16 + b / 16) :: c6 (b % 16 * 4 + c / 64) :: c6 (c % 64) ::
      b64encode rest

/-- Base64 decoding of a padded base64 text. -/
def b64decode : List Char → Option (List Nat)
  | [] => some []
  | c1 :: c2 :: c3 :: c4 :: rest =>
    match v6 c1, v6 c2 with
    | some n1, some n2 =>
      if c3 = '=' then
        if c4 = '=' ∧ rest = [] ∧ n2 % 16 = 0 then some [n1 * 4 + n2 / 16] else none
      else
        match v6 c3 with
        | some n3 =>
          if c4 = '=' then
            if rest = [] ∧ n3 % 4 = 0 then some [n1 * 4 + n2 / 16, n2 % 16 * 16 + n3 / 4]
            else none
          else
            match v6 c4 with
            | some n4 =>
              (b64decode rest).map
                (fun bs =>
                  (n1 * 4 + n2 / 16) :: (n2 % 16 * 16 + n3 / 4) :: (n3 % 4 * 64 + n4) :: bs)
            | none => none
        | none => none
    | _, _ => none
  | _ => none

/-- btoa: fails on any character above U+00FF, otherwise base64 of the
character codes. -/
def btoaC (s : List Char) : Option (List Char) :=
  if ∀ c ∈ s, c.toNat < 256 then some (b64encode (s.map Char.toNat)) else none

/-- atob: base64 decoding to a string of byte-valued characters. -/
def atobC (s : List Char) : Option (List Char) :=
  (b64decode s).map (List.map Char.ofNat)

/-- The characters escape leaves unescaped: A-Z a-z 0-9 @ * _ + - . /. -/
def IsEscSafe (n : Nat) : Prop :=
  (65 ≤ n ∧ n ≤ 90) ∨ (97 ≤ n ∧ n ≤ 122) ∨ (48 ≤ n ∧ n ≤ 57) ∨
    n = 64 ∨ n = 42 ∨ n = 95 ∨ n = 43 ∨ n = 45 ∨ n = 46 ∨ n = 47

instance (n : Nat) : Decidable (IsEscSafe n) := by unfold IsEscSafe; infer_instance

/-- A %uXXXX escape of a value below 0x10000. -/
def pctU (n : Nat) : List Char :=
  ['%', 'u', hexDig (n / 4096 % 16), hexDig (n / 256 % 16), hexDig (n / 16 % 16), hexDig (n % 16)]

/-- escape: safe characters stay, codes below 256 become %XX, larger
codes %uXXXX.  (JS escape works on UTF-16 units; every string it is
applied to here is a byte string, where the semantics agree.) -/
def escapeC : List Char → List Char
  | [] => []
  | c :: rest =>
    (if IsEscSafe c.toNat then [c]
     else if c.toNat < 256 then pctByte c.toNat
     else pctU c.toNat) ++ escapeC rest

/-- One scan step of the byte layer of decodeURIComponent: a %XX escape
gives its byte, a literal character contributes its UTF-8 bytes; a
malformed percent escape raises URIError (none). -/
def duriStep (c : Char) (rest : List Char) : Option (List Nat × List Char) :=
  if c = '%' then
    match rest with
    | h1 :: h2 :: r2 =>
      match hexVal h1, hexVal h2 with
      | some a, some b => some ([16 * a + b], r2)
      | _, _ => none
    | _ => none
  else some (utf8Char c, rest)

/-- Fueled iteration of duriStep. -/
def duriRun : Nat → List Char → Option (List Nat)
  | _, [] => some []
  | 0, _ :: _ => none
  | fuel + 1, c :: rest =>
    match duriStep c rest with
    | none => none
    | some (out, rem) => (duriRun fuel rem).map (fun bs => out ++ bs)

/-- The byte layer of decodeURIComponent. -/
def duriBytes (cs : List Char) : Option (List Nat) := duriRun cs.length cs

/-- decodeURIComponent: the percent-decoded byte sequence must be valid
UTF-8. -/
def decodeURIComponentC (s : List Char) : Option (List Char) :=
  (duriBytes s).bind utf8Decode

/-! ### JSON serialization of TrackerState

JSON.stringify on a live TrackerState emits one object with the fixed
key order of initial / reset (incidentId, machineId, machineName, upn,
bu, active, completed, log, readonly), no whitespace, the completed
entries in insertion order and the log entries in order.  JSON.parse is
modelled on exactly this canonical shape (it accepts more spellings —
whitespace, reordered keys — but every input it is given in this
development is produced by the stringify model, so only canonical texts
and failures matter). -/

/-- JSON string escaping of one character, as JSON.stringify performs
it (quote, backslash, the five short control escapes, \u00XX for the
remaining control characters; hex digit case does not matter to the
parser). -/
def jesc (c : Char) : List Char :=
  if c = '"' then ['\\', '"']
  else if c = '\\' then ['\\', '\\']
  else if c = '\x08' then ['\\', 'b']
  else if c = '\x09' then ['\\', 't']
  else if c = '\x0a' then ['\\', 'n']
  else if c = '\x0c' then ['\\', 'f']
  else if c = '\x0d' then ['\\', 'r']
  else if c.toNat < 32 then ['\\', 'u', '0', '0', hexDig (c.toNat / 16), hexDig (c.toNat % 16)]
  else [c]

/-- A JSON string literal. -/
def jstr (s : List Char) : List Char := '"' :: (s.flatMap jesc ++ ['"'])

/-- Combines four hex digits. -/
def unhex4 (a b x d : Char) : Option Nat :=
  match hexVal a, hexVal b, hexVal x, hexVal d with
  | some va, some vb, some vx, some vd => some (va * 4096 + vb * 256 + vx * 16 + vd)
  | _, _, _, _ => none

/-- One scan step inside a JSON string body: some (some ch, rest) is a
content character, some (none, rest) is the closing quote, none is a
malformed body. -/
def jstrStep (c : Char) (rest : List Char) : Option (Option Char × List Char) :=
  if c = '"' then some (none, rest)
  else if c = '\\' then
    match rest with
    | [] => none
    | e :: r2 =>
      if e = '"' then some (some '"', r2)
      else if e = '\\' then some (some '\\', r2)
      else if e = '/' then some (some '/', r2)
      else if e = 'b' then some (some '\x08', r2)
      else if e = 't' then some (some '\x09', r2)
      else if e = 'n' then some (some '\x0a', r2)
      else if e = 'f' then some (some '\x0c', r2)
      else if e = 'r' then some (some '\x0d', r2)
      else if e = 'u' then
        match r2 with
        | h1 :: h2 :: h3 :: h4 :: r6 =>
          match unhex4 h1 h2 h3 h4 with
          | some n => if n.isValidChar then some (some (Char.ofNat n), r6) else none
          | none => none
        | _ => none
      else none
  else if c.toNat < 32 then none
  else some (some c, rest)

/-- Fueled iteration of jstrStep until the closing quote. -/
def jstrRun : Nat → List Char → Option (List Char × List Char)
  | _, [] => none
  | 0, _ :: _ => none
  | fuel + 1, c :: rest =>
    match jstrStep c rest with
    | none => none
    | some (none, r) => some ([], r)
    | some (some ch, r) => (jstrRun fuel r).map (fun pr => (ch :: pr.1, pr.2))

/-- Parses a JSON string body (after the opening quote); returns the
content and the remainder after the closing quote. -/
def parseJStr (cs : List Char) : Option (List Char × List Char) := jstrRun cs.length cs

/-- Parses a JSON string literal. -/
def parseString : List Char → Option (List Char × List Char)
  | [] => none
  | c :: rest => if c = '"' then parseJStr rest else none

/-- Matches an expected literal character sequence, returning the
remainder. -/
def expect : List Char → List Char → Option (List Char)
  | [], cs => some cs
  | _ :: _, [] => none
  | p :: ps, c :: cs => if c = p then expect ps cs else none

/-- Reads a step id back from its JSON name. -/
def strToStep (s : String) : Option StepId :=
  if s = "started" then some .started
  else if s = "validated" then some .validated
  else if s = "it_sent" then some .it_sent
  else if s = "it_ok" then some .it_ok
  else if s = "hob_sent" then some .hob_sent
  else if s = "hob_ok" then some .hob_ok
  else if s = "unisolate" then some .unisolate
  else if s = "done" then some .done
  else none

/-- Reads a role back from its JSON name. -/
def strToRole (s : String) : Option Role :=
  if s = "operator" then some .operator
  else if s = "it" then some .it
  else if s = "hob" then some .hob
  else none

/-- Renders a list of pieces separated by commas. -/
def renderSepBy (r1 : α → List Char) : List α → List Char
  | [] => []
  | [x] => r1 x
  | x :: xs => r1 x ++ ',' :: renderSepBy r1 xs

/-- One completed entry, "step":"timestamp". -/
def renderEntryC (p : StepId × String) : List Char :=
  jstr (stepStr p.1).data ++ ':' :: jstr p.2.data

/-- The completed object. -/
def renderCompleted (m : List (StepId × String)) : List Char :=
  '\x7b' :: (renderSepBy renderEntryC m ++ ['\x7d'])

/-- One log entry object. -/
def renderLogEntry (e : LogEntry) : List Char :=
  "\x7b\"ts\":".data ++ jstr e.ts.data ++ ",\"who\":".data ++ jstr (roleStr e.who).data ++
    ",\"what\":".data ++ jstr e.what.data ++ ['\x7d']

/-- The log array. -/
def renderLog (l : List LogEntry) : List Char :=
  '[' :: (renderSepBy renderLogEntry l ++ [']'])

/-- JSON.stringify on a TrackerState (canonical shape, see above). -/
def renderStateC (s : TrackerState) : List Char :=
  "\x7b\"incidentId\":".data ++ jstr s.incidentId.data ++
    ",\"machineId\":".data ++ jstr s.machineId.data ++
    ",\"machineName\":".data ++ jstr s.machineName.data ++
    ",\"upn\":".data ++ jstr s.upn.data ++
    ",\"bu\":".data ++ jstr s.bu.data ++
    ",\"active\":".data ++ jstr (stepStr s.active).data ++
    ",\"completed\":".data ++ renderCompleted s.completed ++
    ",\"log\":".data ++ renderLog s.log ++
    ",\"readonly\":".data ++ (if s.readonly then "true".data else "false".data) ++ ['\x7d']

/-- JSON.stringify(state) as a string. -/
def renderState (s : TrackerState) : String := String.mk (renderStateC s)

/-- Parses the nonempty entry list of a completed object, consuming the
closing brace.  The fuel bounds the number of entries. -/
def parseCEntries : Nat → List Char → Option (List (StepId × String) × List Char)
  | 0, _ => none
  | fuel + 1, cs =>
    match parseString cs with
    | none => none
    | some (key, r1) =>
      match strToStep (String.mk key) with
      | none => none
      | some k =>
        match expect [':'] r1 with
        | none => none
        | some r2 =>
          match parseString r2 with
          | none => none
          | some (v, r3) =>
            match expect [','] r3 with
            | some r4 => (parseCEntries fuel r4).map (fun pr => ((k, String.mk v) :: pr.1, pr.2))
            | none =>
              match expect ['\x7d'] r3 with
              | some r4 => some ([(k, String.mk v)], r4)
              | none => none

/-- Parses a completed object. -/
def parseCompleted (cs : List Char) : Option (List (StepId × String) × List Char) :=
  match expect ['\x7b'] cs with
  | none => none
  | some r =>
    match expect ['\x7d'] r with
    | some r2 => some ([], r2)
    | none => parseCEntries r.length r

/-- Parses one log entry object. -/
def parseLogEntry (cs : List Char) : Option (LogEntry × List Char) :=
  match expect ("\x7b\"ts\":".data) cs with
  | none => none
  | some r1 =>
    match parseString r1 with
    | none => none
    | some (ts, r2) =>
      match expect (",\"who\":".data) r2 with
      | none => none
      | some r3 =>
        match parseString r3 with
        | none => none
        | some (w, r4) =>
          match strToRole (String.mk w) with
          | none => none
          | some who =>
            match expect (",\"what\":".data) r4 with
            | none => none
            | some r5 =>
              match parseString r5 with
              | none => none
              | some (wt, r6) =>
                match expect ['\x7d'] r6 with
                | some r7 => some (⟨String.mk ts, who, String.mk wt⟩, r7)
                | none => none

/-- Parses the nonempty entry list of a log array, consuming the closing
bracket. -/
def parseLEntries : Nat → List Char → Option (List LogEntry × List Char)
  | 0, _ => none
  | fuel + 1, cs =>
    match parseLogEntry cs with
    | none => none
    | some (e, r) =>
      match expect [','] r with
      | some r2 => (parseLEntries fuel r2).map (fun pr => (e :: pr.1, pr.2))
      | none =>
        match expect [']'] r with
        | some r2 => some ([e], r2)
        | none => none

/-- Parses a log array. -/
def parseLog (cs : List Char) : Option (List LogEntry × List Char) :=
  match expect ['['] cs with
  | none => none
  | some r =>
    match expect [']'] r with
    | some r2 => some ([], r2)
    | none => parseLEntries r.length r

/-- Parses a JSON boolean. -/
def parseBool (cs : List Char) : Option (Bool × List Char) :=
  match expect ("true".data) cs with
  | some r => some (true, r)
  | none =>
    match expect ("false".data) cs with
    | some r => some (false, r)
    | none => none

/-- JSON.parse on the canonical TrackerState shape; the whole input must
be consumed. -/
def parseStateC (cs : List Char) : Option TrackerState :=
  match expect ("\x7b\"incidentId\":".data) cs with
  | none => none
  | some r1 =>
    match parseString r1 with
    | none => none
    | some (i, r2) =>
      match expect (",\"machineId\":".data) r2 with
      | none => none
      | some r3 =>
        match parseString r3 with
        | none => none
        | some (m, r4) =>
          match expect (",\"machineName\":".data) r4 with
          | none => none
          | some r5 =>
            match parseString r5 with
            | none => none
            | some (mn, r6) =>
              match expect (",\"upn\":".data) r6 with
              | none => none
              | some r7 =>
                match parseString r7 with
                | none => none
                | some (u, r8) =>
                  match expect (",\"bu\":".data) r8 with
                  | none => none
                  | some r9 =>
                    match parseString r9 with
                    | none => none
                    | some (b, r10) =>
                      match expect (",\"active\":".data) r10 with
                      | none => none
                      | some r11 =>
                        match parseString r11 with
                        | none => none
                        | some (a, r12) =>
                          match strToStep (String.mk a) with
                          | none => none
                          | some act =>
                            match expect (",\"completed\":".data) r12 with
                            | none => none
                            | some r13 =>
                              match parseCompleted r13 with
                              | none => none
                              | some (comp, r14) =>
                                match expect (",\"log\":".data) r14 with
                                | none => none
                                | some r15 =>
                                  match parseLog r15 with
                                  | none => none
                                  | some (lg, r16) =>
                                    match expect (",\"readonly\":".data) r16 with
                                    | none => none
                                    | some r17 =>
                                      match parseBool r17 with
                                      | none => none
                                      | some (ro, r18) =>
                                        if r18 = ['\x7d'] then
                                          some
                                            { incidentId := String.mk i
                                              machineId := String.mk m
                                              machineName := String.mk mn
                                              upn := String.mk u
                                              bu := String.mk b
                                              active := act
                                              completed := comp
                                              log := lg
                                              readonly := ro }
                                        else none

/-- JSON.parse on a string, to a TrackerState. -/
def parseState (s : String) : Option TrackerState := parseStateC s.data

/-! ### The snapshot codec and bootstrap -/

/-- The derived snapshot, \x7b...state, readonly: true\x7d (App.tsx
line 109). -/
def snapshot (s : TrackerState) : TrackerState := { s with readonly := true }

/-- The encoded token built by share (App.tsx line 110):
btoa(unescape(encodeURIComponent(JSON.stringify(snap)))). -/
def encodeToken (s : TrackerState) : Option String :=
  (btoaC (unescapeC (encodeURIComponentC (renderStateC (snapshot s))))).map String.mk

/-- The decoder applied to the fragment token (App.tsx line 54):
JSON.parse(decodeURIComponent(escape(atob(hash)))). -/
def decodeToken (t : String) : Option TrackerState :=
  match atobC t.data with
  | none => none
  | some bytesStr =>
    match decodeURIComponentC (escapeC bytesStr) with
    | none => none
    | some j => parseStateC j

/-- url.hash.replace(/^#state=/, "") (App.tsx line 52): strips the
leading #state= when present. -/
def stripStatePrefix (hash : String) : String :=
  match expect ("#state=".data) hash.data with
  | some rest => String.mk rest
  | none => hash

/-- bootstrap (App.tsx lines 50-66).  hash is url.hash; qi, qm, qu, qb,
qn are the incidentId, machineId, upn, bu, machineName query parameters
(none when absent); store is the local store.  A nonempty fragment token
is decoded first, a decode failure being swallowed; then the cache entry
under toKey(incidentId, machineId) is parsed, a parse failure being
swallowed; finally the URL-context-only seed is returned. -/
def bootstrap (hash : String) (qi qm qu qb qn : Option String)
    (store : String → Option String) : Seed :=
  let tok := stripStatePrefix hash
  match (if tok = "" then none else decodeToken tok) with
  | some st => seedOfState st
  | none =>
    let i := qi.getD ""
    let m := qm.getD ""
    let u := qu.getD ""
    let b := qb.getD ""
    let n := qn.getD ""
    match store (toKey i m) with
    | some cached =>
      match parseState cached with
      | some st => seedOfState st
      | none => urlSeed i m u b n
    | none => urlSeed i m u b n

/-- The persistence effect (App.tsx lines 89-93): on a state change,
skip when readonly or when either identifier is empty, otherwise write
JSON.stringify(state) under toKey(incidentId, machineId). -/
def persistStep (store : String → Option String) (s : TrackerState) :
    String → Option String :=
  if s.readonly then store
  else if s.incidentId = "" ∨ s.machineId = "" then store
  else fun k => if k = toKey s.incidentId s.machineId then some (renderState s) else store k

/-! ### Auxiliary notions used by the claims -/

/-- The linear successor in the 8-step catalog, written out from the
spec wording of §4.3 (independently of nextFor). -/
def linSucc : StepId → Option StepId
  | .started => some .validated
  | .validated => some .it_sent
  | .it_sent => some .it_ok
  | .it_ok => some .hob_sent
  | .hob_sent => some .hob_ok
  | .hob_ok => some .unisolate
  | .unisolate => some .done
  | .done => none

/-- The role gating table exactly as the claim states it: operator gets
the linear successor; it gets it_ok iff active is validated, it_sent or
it_ok; hob gets hob_ok iff active is it_ok, hob_sent or hob_ok. -/
def gateSpec (r : Role) (a : StepId) : Option StepId :=
  match r with
  | .operator => linSucc a
  | .it =>
    if a = StepId.validated ∨ a = StepId.it_sent ∨ a = StepId.it_ok then some StepId.it_ok
    else none
  | .hob =>
    if a = StepId.it_ok ∨ a = StepId.hob_sent ∨ a = StepId.hob_ok then some StepId.hob_ok
    else none

/-- A sequence of advance calls, each with its role and timestamp. -/
def advSeq : List (Role × String) → TrackerState → TrackerState
  | [], s => s
  | (r, now) :: ops, s => advSeq ops (advanceOp r now s)

/-- The completed-map health invariant: the active step has an entry and
no recorded timestamp is the empty string (every timestamp the program
writes is an ISO date string, never empty). -/
def CompletedGood (s : TrackerState) : Prop :=
  (getTs s.completed s.active).isSome = true ∧ ∀ p ∈ s.completed, p.2 ≠ ""

instance (s : TrackerState) : Decidable (CompletedGood s) := by
  unfold CompletedGood; infer_instance

/-! ### Concrete example data used by witnesses and counterexamples -/

/-- A fully progressed completed map. -/
def exCompleted : List (StepId × String) :=
  [(.started, "t0"), (.validated, "t1"), (.it_sent, "t2"), (.it_ok, "t3"), (.hob_sent, "t4"),
    (.hob_ok, "t5"), (.unisolate, "t6"), (.done, "t7")]

/-- A log of a finished run. -/
def exLog : List LogEntry :=
  [⟨"t0", .operator, "Tracker created"⟩, ⟨"t7", .operator, "operator advanced → Completed"⟩]

/-- A fully decoded snapshot state: finished, read-only, with its own
progress fields. -/
def exSnapshotState : TrackerState :=
  { incidentId := "INC-7"
    machineId := "M-9"
    machineName := "host-1"
    upn := "user@corp"
    bu := "SOC"
    active := .done
    completed := exCompleted
    log := exLog
    readonly := true }

/-- An ordinary editable mid-flow state. -/
def exState : TrackerState :=
  { incidentId := "INC-1"
    machineId := "M-1"
    machineName := "host"
    upn := "u@x"
    bu := "BU"
    active := .validated
    completed := [(.started, "t0"), (.validated, "t1")]
    log := [⟨"t0", .operator, "Tracker created"⟩]
    readonly := false }

/-- The all-absent seed (fresh load with nothing available). -/
def emptySeed : Seed :=
  { incidentId := none
    machineId := none
    machineName := none
    upn := none
    bu := none
    active := none
    completed := none
    log := none
    readonly := none }

/-- A local store holding exactly the cache entry for exSnapshotState
under its own key. -/
def exStore : String → Option String :=
  fun k => if k = toKey "INC-7" "M-9" then some (renderState exSnapshotState) else none

/-- A local store holding one unrelated record under exState's key. -/
def exStore2 : String → Option String :=
  fun k => if k = toKey "INC-1" "M-1" then some "old" else none

/-- The empty local store. -/
def exEmptyStore : String → Option String := fun _ => none

/-! ### Lemmas: characters and bytes -/

theorem toNat_ofNat_valid {n : Nat} (h : n.isValidChar) : (Char.ofNat n).toNat = n := by
  simp [Char.ofNat, h, Char.ofNatAux, Char.toNat, UInt32.toNat]

theorem char_valid (c : Char) :
    c.toNat < 0xd800 ∨ (0xdfff < c.toNat ∧ c.toNat < 0x110000) := c.valid

theorem toNat_ofNat_byte {n : Nat} (h : n < 0xd800) : (Char.ofNat n).toNat = n :=
  toNat_ofNat_valid (Or.inl h)

theorem hexVal_hexDig {n : Nat} (h : n < 16) : hexVal (hexDig n) = some n := by
  unfold hexDig hexVal
  by_cases h10 : n < 10
  · rw [if_pos h10, toNat_ofNat_byte (by omega), if_pos (by omega)]
    congr 1
    omega
  · rw [if_neg h10, toNat_ofNat_byte (by omega), if_neg (by omega), if_pos (by omega)]
    congr 1
    omega

theorem utf8Char_lt (c : Char) : ∀ b ∈ utf8Char c, b < 256 := by
  have hv := char_valid c
  intro b hb
  unfold utf8Char at hb
  split_ifs at hb with h1 h2 h3
  · rcases List.mem_singleton.1 hb with rfl
    omega
  · simp only [List.mem_cons, List.not_mem_nil, or_false] at hb
    rcases hb with rfl | rfl <;> omega
  · simp only [List.mem_cons, List.not_mem_nil, or_false] at hb
    rcases hb with rfl | rfl | rfl <;> omega
  · simp only [List.mem_cons, List.not_mem_nil, or_false] at hb
    rcases hb with rfl | rfl | rfl | rfl <;> omega

theorem utf8Char_ne_nil (c : Char) : utf8Char c ≠ [] := by
  unfold utf8Char
  split_ifs <;> simp

theorem utf8DecodeOne_char (c : Char) (bs : List Nat) :
    ∀ h t, utf8Char c = h :: t → utf8DecodeOne h (t ++ bs) = some (c, bs) := by
  have hv := char_valid c
  intro h t hct
  unfold utf8Char at hct
  split_ifs at hct with h1 h2 h3
  · injection hct with e1 e2
    subst e1; subst e2
    simp only [utf8DecodeOne, h1, if_true, List.nil_append, Char.ofNat_toNat]
  · injection hct with e1 e2
    subst e1; subst e2
    have k1 : ¬(0xC0 + c.toNat / 64 < 0x80) := by omega
    have k2 : ¬(0xC0 + c.toNat / 64 < 0xC2) := by omega
    have k3 : 0xC0 + c.toNat / 64 < 0xE0 := by omega
    have k4 : 0x80 ≤ 0x80 + c.toNat % 64 ∧ 0x80 + c.toNat % 64 < 0xC0 := by omega
    have heq : (0xC0 + c.toNat / 64 - 0xC0) * 64 + (0x80 + c.toNat % 64 - 0x80) = c.toNat := by
      omega
    simp only [utf8DecodeOne, k1, k2, k3, k4, if_true, if_false, List.cons_append,
      List.nil_append, heq, Char.ofNat_toNat, and_self, and_true, true_and]
  · injection hct with e1 e2
    subst e1; subst e2
    have hdd : c.toNat / 64 / 64 = c.toNat / 4096 := by rw [Nat.div_div_eq_div_mul]
    have k1 : ¬(0xE0 + c.toNat / 4096 < 0x80) := by omega
    have k2 : ¬(0xE0 + c.toNat / 4096 < 0xC2) := by omega
    have k3 : ¬(0xE0 + c.toNat / 4096 < 0xE0) := by omega
    have k4 : 0xE0 + c.toNat / 4096 < 0xF0 := by omega
    have k5 :
        (0x80 ≤ 0x80 + c.toNat / 64 % 64 ∧ 0x80 + c.toNat / 64 % 64 < 0xC0) ∧
          0x80 ≤ 0x80 + c.toNat % 64 ∧ 0x80 + c.toNat % 64 < 0xC0 := by
      omega
    have heq :
        (0xE0 + c.toNat / 4096 - 0xE0) * 4096 + (0x80 + c.toNat / 64 % 64 - 0x80) * 64 +
          (0x80 + c.toNat % 64 - 0x80) = c.toNat := by
      omega
    have k6 : 0x800 ≤ c.toNat ∧ (c.toNat < 0xD800 ∨ 0xDFFF < c.toNat) := by omega
    simp only [utf8DecodeOne, k1, k2, k3, k4, k5, if_true, if_false, List.cons_append,
      List.nil_append, heq, k6, Char.ofNat_toNat, and_self, and_true, true_and]
  · injection hct with e1 e2
    subst e1; subst e2
    have hdd : c.toNat / 64 / 64 = c.toNat / 4096 := by rw [Nat.div_div_eq_div_mul]
    have hdd2 : c.toNat / 4096 / 64 = c.toNat / 0x40000 := by rw [Nat.div_div_eq_div_mul]
    have k1 : ¬(0xF0 + c.toNat / 0x40000 < 0x80) := by omega
    have k2 : ¬(0xF0 + c.toNat / 0x40000 < 0xC2) := by omega
    have k3 : ¬(0xF0 + c.toNat / 0x40000 < 0xE0) := by omega
    have k4 : ¬(0xF0 + c.toNat / 0x40000 < 0xF0) := by omega
    have k5 : 0xF0 + c.toNat / 0x40000 < 0xF5 := by omega
    have k6 :
        (0x80 ≤ 0x80 + c.toNat / 4096 % 64 ∧ 0x80 + c.toNat / 4096 % 64 < 0xC0) ∧
          (0x80 ≤ 0x80 + c.toNat / 64 % 64 ∧ 0x80 + c.toNat / 64 % 64 < 0xC0) ∧
            0x80 ≤ 0x80 + c.toNat % 64 ∧ 0x80 + c.toNat % 64 < 0xC0 := by
      omega
    have heq :
        (0xF0 + c.toNat / 0x40000 - 0xF0) * 0x40000 + (0x80 + c.toNat / 4096 % 64 - 0x80) * 4096 +
          (0x80 + c.toNat / 64 % 64 - 0x80) * 64 + (0x80 + c.toNat % 64 - 0x80) = c.toNat := by
      omega
    have k7 : 0x10000 ≤ c.toNat ∧ c.toNat < 0x110000 := by omega
    simp only [utf8DecodeOne, k1, k2, k3, k4, k5, k6, if_true, if_false, List.cons_append,
      List.nil_append, heq, k7, Char.ofNat_toNat, and_self, and_true, true_and]

theorem utf8DecodeF_encode :
    ∀ s fuel, (utf8Encode s).length ≤ fuel → utf8DecodeF fuel (utf8Encode s) = some s := by
  intro s
  induction s with
  | nil =>
    intro fuel _
    cases fuel <;> rfl
  | cons c s ih =>
    intro fuel hf
    have hcons : utf8Encode (c :: s) = utf8Char c ++ utf8Encode s := by
      unfold utf8Encode
      rw [List.flatMap_cons]
    obtain ⟨h, t, hct⟩ : ∃ h t, utf8Char c = h :: t := by
      cases hch : utf8Char c with
      | nil => exact absurd hch (utf8Char_ne_nil c)
      | cons x xs => exact ⟨x, xs, rfl⟩
    rw [hcons] at hf ⊢
    rw [hct] at hf ⊢
    cases fuel with
    | zero =>
      exfalso
      simp [List.length_cons] at hf
    | succ f =>
      rw [List.cons_append]
      have hone := utf8DecodeOne_char c (utf8Encode s) h t hct
      simp only [utf8DecodeF, hone]
      rw [ih f (by simp [List.length_append] at hf ⊢; omega)]
      rfl

theorem utf8Decode_encode (s : List Char) : utf8Decode (utf8Encode s) = some s :=
  utf8DecodeF_encode s (utf8Encode s).length le_rfl

theorem utf8Encode_lt (s : List Char) : ∀ b ∈ utf8Encode s, b < 256 := by
  intro b hb
  unfold utf8Encode at hb
  rw [List.mem_flatMap] at hb
  obtain ⟨c, _, hc⟩ := hb
  exact utf8Char_lt c b hc

theorem hexDig_toNat {n : Nat} (h : n < 16) :
    (hexDig n).toNat = if n < 10 then 48 + n else 55 + n := by
  unfold hexDig
  by_cases h10 : n < 10 <;> simp only [h10, if_true, if_false, reduceIte] <;>
    rw [toNat_ofNat_byte (by omega)]

theorem hexDig_ne_u {n : Nat} (h : n < 16) : hexDig n ≠ 'u' := by
  intro he
  have h2 : (hexDig n).toNat = 117 := by rw [he]; rfl
  rw [hexDig_toNat h] at h2
  split at h2 <;> omega

theorem IsUnres_lt {n : Nat} (h : IsUnres n) : n < 0x80 := by
  unfold IsUnres at h
  rcases h with h | h | h | h | h | h | h | h | h | h | h | h <;> omega

theorem unescStep_len (c : Char) (rest : List Char) :
    (unescStep c rest).2.length ≤ rest.length := by
  unfold unescStep
  split_ifs <;> (repeat' split) <;> simp_all <;> omega

theorem unescRun_mono :
    ∀ fuel fuel' cs, cs.length ≤ fuel → cs.length ≤ fuel' →
      unescRun fuel cs = unescRun fuel' cs := by
  intro fuel
  induction fuel with
  | zero =>
    intro fuel' cs h _
    have : cs = [] := List.eq_nil_of_length_eq_zero (by omega)
    subst this
    cases fuel' <;> rfl
  | succ f ih =>
    intro fuel' cs h h'
    cases cs with
    | nil => cases fuel' <;> rfl
    | cons c rest =>
      cases fuel' with
      | zero => simp at h'
      | succ f' =>
        simp only [unescRun]
        congr 1
        have hlen := unescStep_len c rest
        simp only [List.length_cons] at h h'
        exact ih f' (unescStep c rest).2 (by omega) (by omega)

theorem unescapeC_lit (c : Char) (rest : List Char) (h : ¬(c = '%')) :
    unescapeC (c :: rest) = c :: unescapeC rest := by
  unfold unescapeC
  simp only [List.length_cons, unescRun, unescStep, h, if_false, reduceIte,
    List.singleton_append]

theorem unescapeC_pct (d1 d2 : Char) (rest : List Char) (hu : ¬(d1 = 'u')) (a b : Nat)
    (e1 : hexVal d1 = some a) (e2 : hexVal d2 = some b) :
    unescapeC ('%' :: d1 :: d2 :: rest) = Char.ofNat (16 * a + b) :: unescapeC rest := by
  unfold unescapeC
  simp only [List.length_cons, unescRun, unescStep, hu, if_false, reduceIte, if_pos rfl, e1, e2,
    List.singleton_append]
  congr 1
  exact unescRun_mono (rest.length + 2) rest.length rest (by omega) le_rfl

theorem unesc_pct :
    ∀ (bs : List Nat), (∀ b ∈ bs, b < 256) →
      ∀ t, unescapeC (bs.flatMap pctByte ++ t) = bs.map Char.ofNat ++ unescapeC t := by
  intro bs
  induction bs with
  | nil =>
    intro _ t
    simp
  | cons b bs ih =>
    intro hlt t
    have hb : b < 256 := hlt b (List.mem_cons_self _ _)
    rw [List.flatMap_cons, List.map_cons]
    show unescapeC (pctByte b ++ bs.flatMap pctByte ++ t) = _
    rw [List.append_assoc]
    have hshape :
        pctByte b ++ (bs.flatMap pctByte ++ t) =
          '%' :: hexDig (b / 16) :: hexDig (b % 16) :: (bs.flatMap pctByte ++ t) := rfl
    rw [hshape]
    rw [unescapeC_pct (hexDig (b / 16)) (hexDig (b % 16)) _ (hexDig_ne_u (by omega)) _ _
      (hexVal_hexDig (by omega)) (hexVal_hexDig (by omega))]
    rw [ih (fun x hx => hlt x (List.mem_cons_of_mem _ hx)) t]
    have : 16 * (b / 16) + b % 16 = b := by omega
    rw [this]
    simp

theorem unesc_enc (s : List Char) :
    unescapeC (encodeURIComponentC s) = (utf8Encode s).map Char.ofNat := by
  induction s with
  | nil => rfl
  | cons c s ih =>
    have henc : utf8Encode (c :: s) = utf8Char c ++ utf8Encode s := by
      unfold utf8Encode
      rw [List.flatMap_cons]
    rw [henc, List.map_append]
    by_cases hc : IsUnres c.toNat
    · have hlt := IsUnres_lt hc
      have hne : ¬(c = '%') := by
        intro he
        subst he
        exact absurd hc (by decide)
      have hch : utf8Char c = [c.toNat] := by
        unfold utf8Char
        rw [if_pos hlt]
      simp only [encodeURIComponentC, hc, if_true, List.singleton_append]
      rw [unescapeC_lit c _ hne, ih, hch]
      simp [Char.ofNat_toNat]
    · simp only [encodeURIComponentC, hc, if_false, reduceIte]
      rw [unesc_pct (utf8Char c) (utf8Char_lt c) (encodeURIComponentC s), ih]

theorem v6_c6 {n : Nat} (h : n < 64) : v6 (c6 n) = some n := by
  unfold c6
  split_ifs with h1 h2 h3 h4
  · unfold v6
    rw [toNat_ofNat_byte (by omega), if_pos (by omega)]
    congr 1
    omega
  · unfold v6
    rw [toNat_ofNat_byte (by omega), if_neg (by omega), if_pos (by omega)]
    congr 1
    omega
  · unfold v6
    rw [toNat_ofNat_byte (by omega), if_neg (by omega), if_neg (by omega), if_pos (by omega)]
    congr 1
    omega
  · subst h4
    rfl
  · have : n = 63 := by omega
    subst this
    rfl

theorem v6_eq_none : v6 '=' = none := by decide

theorem c6_ne_eq {n : Nat} (h : n < 64) : c6 n ≠ '=' := by
  intro he
  have h1 := v6_c6 h
  rw [he, v6_eq_none] at h1
  exact Option.noConfusion h1

theorem b64_round : ∀ bs : List Nat, (∀ b ∈ bs, b < 256) → b64decode (b64encode bs) = some bs := by
  have H : ∀ len (bs : List Nat), bs.length ≤ len → (∀ b ∈ bs, b < 256) →
      b64decode (b64encode bs) = some bs := by
    intro len
    induction len with
    | zero =>
      intro bs hlen _
      have : bs = [] := List.eq_nil_of_length_eq_zero (by omega)
      subst this
      rfl
    | succ k ih =>
      intro bs hlen hlt
      rcases bs with _ | ⟨a, _ | ⟨b, _ | ⟨c, rest⟩⟩⟩
      · rfl
      · have ha : a < 256 := hlt a (by simp)
        have e1 := v6_c6 (show a / 4 < 64 by omega)
        have e2 := v6_c6 (show a % 4 * 16 < 64 by omega)
        have hmod : a % 4 * 16 % 16 = 0 := by omega
        have hval : a / 4 * 4 + a % 4 * 16 / 16 = a := by omega
        simp only [b64encode, b64decode, e1, e2, if_pos rfl, hmod, and_self, and_true, true_and,
          if_true, reduceIte, hval]
      · have ha : a < 256 := hlt a (by simp)
        have hb : b < 256 := hlt b (by simp)
        have e1 := v6_c6 (show a / 4 < 64 by omega)
        have e2 := v6_c6 (show a % 4 * 16 + b / 16 < 64 by omega)
        have e3 := v6_c6 (show b % 16 * 4 < 64 by omega)
        have hne := c6_ne_eq (show b % 16 * 4 < 64 by omega)
        have hmod : b % 16 * 4 % 4 = 0 := by omega
        have hv1 : a / 4 * 4 + (a % 4 * 16 + b / 16) / 16 = a := by omega
        have hv2 : (a % 4 * 16 + b / 16) % 16 * 16 + b % 16 * 4 / 4 = b := by omega
        simp only [b64encode, b64decode, e1, e2, e3, hne, if_false, reduceIte, if_pos rfl, hmod,
          and_self, and_true, true_and, if_true, hv1, hv2]
      · have ha : a < 256 := hlt a (by simp)
        have hb : b < 256 := hlt b (by simp)
        have hc : c < 256 := hlt c (by simp)
        have e1 := v6_c6 (show a / 4 < 64 by omega)
        have e2 := v6_c6 (show a % 4 * 16 + b / 16 < 64 by omega)
        have e3 := v6_c6 (show b % 16 * 4 + c / 64 < 64 by omega)
        have e4 := v6_c6 (show c % 64 < 64 by omega)
        have hne3 := c6_ne_eq (show b % 16 * 4 + c / 64 < 64 by omega)
        have hne4 := c6_ne_eq (show c % 64 < 64 by omega)
        have hrest : b64decode (b64encode rest) = some rest := by
          apply ih rest (by simp at hlen; omega)
          intro x hx
          exact hlt x (by simp [hx])
        have hv1 : a / 4 * 4 + (a % 4 * 16 + b / 16) / 16 = a := by omega
        have hv2 : (a % 4 * 16 + b / 16) % 16 * 16 + (b % 16 * 4 + c / 64) / 4 = b := by omega
        have hv3 : (b % 16 * 4 + c / 64) % 4 * 64 + c % 64 = c := by omega
        simp only [b64encode, b64decode, e1, e2, e3, e4, hne3, hne4, if_false, reduceIte, hrest,
          Option.map_some, hv1, hv2, hv3]
        rfl
  intro bs
  exact H bs.length bs le_rfl

theorem map_toNat_ofNat (bs : List Nat) (h : ∀ b ∈ bs, b < 256) :
    (bs.map Char.ofNat).map Char.toNat = bs := by
  induction bs with
  | nil => rfl
  | cons b bs ih =>
    rw [List.map_cons, List.map_cons, toNat_ofNat_byte (by have := h b (by simp); omega),
      ih (fun x hx => h x (by simp [hx]))]

theorem IsEscSafe_lt {n : Nat} (h : IsEscSafe n) : n < 0x80 := by
  unfold IsEscSafe at h
  rcases h with h | h | h | h | h | h | h | h | h | h <;> omega

theorem duriBytes_lit (c : Char) (rest : List Char) (h : ¬(c = '%')) :
    duriBytes (c :: rest) = (duriBytes rest).map (fun bs => utf8Char c ++ bs) := by
  unfold duriBytes
  simp only [List.length_cons, duriRun, duriStep, h, if_false, reduceIte]

theorem duriStep_len (c : Char) (rest : List Char) :
    ∀ pr, duriStep c rest = some pr → pr.2.length ≤ rest.length := by
  unfold duriStep
  intro pr
  split_ifs with hp
  · cases rest with
    | nil => intro hx; exact absurd hx (by simp)
    | cons h1 r1 =>
      cases r1 with
      | nil => intro hx; exact absurd hx (by simp)
      | cons h2 r2 =>
        intro hx
        simp only [] at hx
        rcases hv1 : hexVal h1 with _ | a <;> rw [hv1] at hx
        · exact absurd hx (by simp)
        · rcases hv2 : hexVal h2 with _ | b <;> rw [hv2] at hx
          · exact absurd hx (by simp)
          · simp only [Option.some.injEq] at hx
            rw [← hx]
            simp
            omega
  · intro hx
    simp only [Option.some.injEq] at hx
    rw [← hx]

theorem duriRun_mono :
    ∀ fuel fuel' cs, cs.length ≤ fuel → cs.length ≤ fuel' →
      duriRun fuel cs = duriRun fuel' cs := by
  intro fuel
  induction fuel with
  | zero =>
    intro fuel' cs h _
    have : cs = [] := List.eq_nil_of_length_eq_zero (by omega)
    subst this
    cases fuel' <;> rfl
  | succ f ih =>
    intro fuel' cs h h'
    cases cs with
    | nil => cases fuel' <;> rfl
    | cons c rest =>
      cases fuel' with
      | zero => simp at h'
      | succ f' =>
        simp only [duriRun]
        cases hstep : duriStep c rest with
        | none => rfl
        | some pr =>
          obtain ⟨out, rem⟩ := pr
          have hlen : rem.length ≤ rest.length := duriStep_len c rest (out, rem) hstep
          simp only [List.length_cons] at h h'
          simp only []
          rw [ih f' rem (by omega) (by omega)]

theorem duriBytes_pct (d1 d2 : Char) (rest : List Char) (a b : Nat)
    (e1 : hexVal d1 = some a) (e2 : hexVal d2 = some b) :
    duriBytes ('%' :: d1 :: d2 :: rest) = (duriBytes rest).map (fun bs => (16 * a + b) :: bs) := by
  unfold duriBytes
  simp only [List.length_cons, duriRun, duriStep, if_pos rfl, if_true, reduceIte, e1, e2]
  rw [duriRun_mono (rest.length + 1 + 1) rest.length rest (by omega) le_rfl]
  rfl

theorem duri_escape (bs : List Nat) (h : ∀ b ∈ bs, b < 256) :
    duriBytes (escapeC (bs.map Char.ofNat)) = some bs := by
  induction bs with
  | nil => rfl
  | cons b bs ih =>
    have hb : b < 256 := h b (by simp)
    have ihb := ih (fun x hx => h x (by simp [hx]))
    have ht : (Char.ofNat b).toNat = b := toNat_ofNat_byte (by omega)
    rw [List.map_cons]
    by_cases hsafe : IsEscSafe b
    · have hlt : b < 0x80 := IsEscSafe_lt hsafe
      have hne : ¬(Char.ofNat b = '%') := by
        intro he
        have h37 : b = 37 := by
          have := congrArg Char.toNat he
          rwa [ht] at this
        subst h37
        exact absurd hsafe (by decide)
      have hch : utf8Char (Char.ofNat b) = [b] := by
        unfold utf8Char
        rw [ht, if_pos hlt]
      simp only [escapeC, ht, hsafe, if_true, reduceIte, List.singleton_append]
      rw [duriBytes_lit _ _ hne, ihb, hch]
      rfl
    · have e1 := hexVal_hexDig (show b / 16 < 16 by omega)
      have e2 := hexVal_hexDig (show b % 16 < 16 by omega)
      have hshape :
          escapeC (Char.ofNat b :: List.map Char.ofNat bs) =
            '%' :: hexDig (b / 16) :: hexDig (b % 16) :: escapeC (List.map Char.ofNat bs) := by
        simp only [escapeC, ht, hsafe, if_false, hb, if_true, reduceIte]
        rfl
      rw [hshape, duriBytes_pct _ _ _ _ _ e1 e2, ihb]
      have : 16 * (b / 16) + b % 16 = b := by omega
      rw [this]
      rfl

/-- The byte-transport layer of the codec round-trips: base64 over the
UTF-8 bytes obtained through unescape(encodeURIComponent(.)) comes back
intact through decodeURIComponent(escape(atob(.))). -/
theorem token_chain (J : List Char) :
    (btoaC (unescapeC (encodeURIComponentC J))).bind
        (fun tok => (atobC tok).bind (fun b => decodeURIComponentC (escapeC b))) =
      some J := by
  rw [unesc_enc]
  have hbytes := utf8Encode_lt J
  have hchars : ∀ c ∈ (utf8Encode J).map Char.ofNat, c.toNat < 256 := by
    intro c hc
    rw [List.mem_map] at hc
    obtain ⟨b, hb, rfl⟩ := hc
    rw [toNat_ofNat_byte (by have := hbytes b hb; omega)]
    exact hbytes b hb
  unfold btoaC
  rw [if_pos hchars, map_toNat_ofNat _ hbytes]
  rw [Option.some_bind]
  unfold atobC
  rw [b64_round _ hbytes]
  rw [show Option.map (List.map Char.ofNat) (some (utf8Encode J)) =
    some ((utf8Encode J).map Char.ofNat) from rfl, Option.some_bind]
  unfold decodeURIComponentC
  rw [duri_escape _ hbytes, Option.some_bind, utf8Decode_encode]

/-! ### Lemmas: the JSON layer -/

theorem mk_data (s : String) : String.mk s.data = s := rfl

theorem expect_round : ∀ pat rest : List Char, expect pat (pat ++ rest) = some rest := by
  intro pat
  induction pat with
  | nil =>
    intro rest
    rfl
  | cons p ps ih =>
    intro rest
    simp only [List.cons_append, expect, if_pos rfl, if_true, reduceIte]
    exact ih rest

theorem jesc_len (c : Char) : 1 ≤ (jesc c).length := by
  unfold jesc
  split_ifs <;> simp

theorem flatMap_jesc_len (s : List Char) : s.length ≤ (s.flatMap jesc).length := by
  induction s with
  | nil => simp
  | cons c s ih =>
    rw [List.flatMap_cons, List.length_append]
    have := jesc_len c
    simp only [List.length_cons]
    omega

theorem jstrRun_round :
    ∀ (s : List Char) (fuel : Nat) (rest : List Char), s.length < fuel →
      jstrRun fuel (s.flatMap jesc ++ '"' :: rest) = some (s, rest) := by
  intro s
  induction s with
  | nil =>
    intro fuel rest hf
    cases fuel with
    | zero => omega
    | succ f =>
      simp only [List.flatMap_nil, List.nil_append, jstrRun, jstrStep, if_pos rfl, if_true,
        reduceIte]
  | cons c s ih =>
    intro fuel rest hf
    cases fuel with
    | zero => simp at hf
    | succ f =>
      rw [List.flatMap_cons, List.append_assoc]
      have ihf := ih f rest (by simp only [List.length_cons] at hf; omega)
      by_cases h1 : c = '"'
      · subst h1
        rw [show jesc '"' = ['\\', '"'] from rfl]
        rw [show (['\\', '"'] : List Char) ++ (s.flatMap jesc ++ '"' :: rest) =
          '\\' :: '"' :: (s.flatMap jesc ++ '"' :: rest) from rfl]
        have hstep : jstrStep '\\' ('"' :: (s.flatMap jesc ++ '"' :: rest)) =
            some (some '"', s.flatMap jesc ++ '"' :: rest) := rfl
        simp only [jstrRun, hstep, ihf]
        rfl
      by_cases h2 : c = '\\'
      · subst h2
        rw [show jesc '\\' = ['\\', '\\'] from rfl]
        rw [show (['\\', '\\'] : List Char) ++ (s.flatMap jesc ++ '"' :: rest) =
          '\\' :: '\\' :: (s.flatMap jesc ++ '"' :: rest) from rfl]
        have hstep : jstrStep '\\' ('\\' :: (s.flatMap jesc ++ '"' :: rest)) =
            some (some '\\', s.flatMap jesc ++ '"' :: rest) := rfl
        simp only [jstrRun, hstep, ihf]
        rfl
      by_cases h3 : c = '\x08'
      · subst h3
        rw [show jesc '\x08' = ['\\', 'b'] from rfl]
        rw [show (['\\', 'b'] : List Char) ++ (s.flatMap jesc ++ '"' :: rest) =
          '\\' :: 'b' :: (s.flatMap jesc ++ '"' :: rest) from rfl]
        have hstep : jstrStep '\\' ('b' :: (s.flatMap jesc ++ '"' :: rest)) =
            some (some '\x08', s.flatMap jesc ++ '"' :: rest) := rfl
        simp only [jstrRun, hstep, ihf]
        rfl
      by_cases h4 : c = '\x09'
      · subst h4
        rw [show jesc '\x09' = ['\\', 't'] from rfl]
        rw [show (['\\', 't'] : List Char) ++ (s.flatMap jesc ++ '"' :: rest) =
          '\\' :: 't' :: (s.flatMap jesc ++ '"' :: rest) from rfl]
        have hstep : jstrStep '\\' ('t' :: (s.flatMap jesc ++ '"' :: rest)) =
            some (some '\x09', s.flatMap jesc ++ '"' :: rest) := rfl
        simp only [jstrRun, hstep, ihf]
        rfl
      by_cases h5 : c = '\x0a'
      · subst h5
        rw [show jesc '\x0a' = ['\\', 'n'] from rfl]
        rw [show (['\\', 'n'] : List Char) ++ (s.flatMap jesc ++ '"' :: rest) =
          '\\' :: 'n' :: (s.flatMap jesc ++ '"' :: rest) from rfl]
        have hstep : jstrStep '\\' ('n' :: (s.flatMap jesc ++ '"' :: rest)) =
            some (some '\x0a', s.flatMap jesc ++ '"' :: rest) := rfl
        simp only [jstrRun, hstep, ihf]
        rfl
      by_cases h6 : c = '\x0c'
      · subst h6
        rw [show jesc '\x0c' = ['\\', 'f'] from rfl]
        rw [show (['\\', 'f'] : List Char) ++ (s.flatMap jesc ++ '"' :: rest) =
          '\\' :: 'f' :: (s.flatMap jesc ++ '"' :: rest) from rfl]
        have hstep : jstrStep '\\' ('f' :: (s.flatMap jesc ++ '"' :: rest)) =
            some (some '\x0c', s.flatMap jesc ++ '"' :: rest) := rfl
        simp only [jstrRun, hstep, ihf]
        rfl
      by_cases h7 : c = '\x0d'
      · subst h7
        rw [show jesc '\x0d' = ['\\', 'r'] from rfl]
        rw [show (['\\', 'r'] : List Char) ++ (s.flatMap jesc ++ '"' :: rest) =
          '\\' :: 'r' :: (s.flatMap jesc ++ '"' :: rest) from rfl]
        have hstep : jstrStep '\\' ('r' :: (s.flatMap jesc ++ '"' :: rest)) =
            some (some '\x0d', s.flatMap jesc ++ '"' :: rest) := rfl
        simp only [jstrRun, hstep, ihf]
        rfl
      by_cases h8 : c.toNat < 32
      · have hchunk : jesc c =
            ['\\', 'u', '0', '0', hexDig (c.toNat / 16), hexDig (c.toNat % 16)] := by
          unfold jesc
          rw [if_neg h1, if_neg h2, if_neg h3, if_neg h4, if_neg h5, if_neg h6, if_neg h7,
            if_pos h8]
        rw [hchunk]
        rw [show (['\\', 'u', '0', '0', hexDig (c.toNat / 16), hexDig (c.toNat % 16)] :
          List Char) ++ (s.flatMap jesc ++ '"' :: rest) =
          '\\' :: 'u' :: '0' :: '0' :: hexDig (c.toNat / 16) :: hexDig (c.toNat % 16) ::
            (s.flatMap jesc ++ '"' :: rest) from rfl]
        have e1 := hexVal_hexDig (show c.toNat / 16 < 16 by omega)
        have e2 := hexVal_hexDig (show c.toNat % 16 < 16 by omega)
        have hvalid : (c.toNat).isValidChar := Or.inl (by omega)
        have hu4 : unhex4 '0' '0' (hexDig (c.toNat / 16)) (hexDig (c.toNat % 16)) =
            some c.toNat := by
          unfold unhex4
          rw [show hexVal '0' = some 0 from rfl, e1, e2]
          simp only [Option.some.injEq]
          omega
        have hstep :
            jstrStep '\\' ('u' :: '0' :: '0' :: hexDig (c.toNat / 16) :: hexDig (c.toNat % 16) ::
              (s.flatMap jesc ++ '"' :: rest)) =
              some (some c, s.flatMap jesc ++ '"' :: rest) := by
          show (match unhex4 '0' '0' (hexDig (c.toNat / 16)) (hexDig (c.toNat % 16)) with
            | some n =>
              if n.isValidChar then
                some (some (Char.ofNat n), s.flatMap jesc ++ '"' :: rest)
              else none
            | none => none) = some (some c, s.flatMap jesc ++ '"' :: rest)
          rw [hu4]
          simp only [hvalid, if_true, reduceIte, Char.ofNat_toNat]
        simp only [jstrRun, hstep, ihf]
        rfl
      · have hchunk : jesc c = [c] := by
          unfold jesc
          rw [if_neg h1, if_neg h2, if_neg h3, if_neg h4, if_neg h5, if_neg h6, if_neg h7,
            if_neg h8]
        rw [hchunk]
        rw [show ([c] : List Char) ++ (s.flatMap jesc ++ '"' :: rest) =
          c :: (s.flatMap jesc ++ '"' :: rest) from rfl]
        have hstep :
            jstrStep c (s.flatMap jesc ++ '"' :: rest) =
              some (some c, s.flatMap jesc ++ '"' :: rest) := by
          simp only [jstrStep, h1, h2, h8, if_false, reduceIte]
        simp only [jstrRun, hstep, ihf]
        rfl

theorem parseJStr_round (s rest : List Char) :
    parseJStr (s.flatMap jesc ++ '"' :: rest) = some (s, rest) := by
  unfold parseJStr
  apply jstrRun_round
  rw [List.length_append, List.length_cons]
  have := flatMap_jesc_len s
  omega

theorem parseString_round (s rest : List Char) :
    parseString (jstr s ++ rest) = some (s, rest) := by
  unfold jstr
  rw [List.cons_append, List.append_assoc]
  simp only [parseString, if_pos rfl]
  rw [show (['"'] : List Char) ++ rest = '"' :: rest from rfl]
  exact parseJStr_round s rest

theorem strToStep_round (k : StepId) : strToStep (String.mk (stepStr k).data) = some k := by
  cases k <;> rfl

theorem strToRole_round (r : Role) : strToRole (String.mk (roleStr r).data) = some r := by
  cases r <;> rfl

theorem strToStep_str (k : StepId) : strToStep (stepStr k) = some k := by
  cases k <;> rfl

theorem strToRole_str (r : Role) : strToRole (roleStr r) = some r := by
  cases r <;> rfl

theorem jstr_len (s : List Char) : 1 ≤ (jstr s).length := by
  unfold jstr
  simp

theorem renderEntryC_len (p : StepId × String) : 1 ≤ (renderEntryC p).length := by
  unfold renderEntryC
  rw [List.length_append]
  have := jstr_len (stepStr p.1).data
  omega

theorem renderLogEntry_len (e : LogEntry) : 1 ≤ (renderLogEntry e).length := by
  unfold renderLogEntry
  simp

theorem renderSepBy_len (r1 : α → List Char) (h : ∀ x, 1 ≤ (r1 x).length) :
    ∀ m : List α, m.length ≤ (renderSepBy r1 m).length := by
  intro m
  induction m with
  | nil => simp [renderSepBy]
  | cons x xs ih =>
    cases xs with
    | nil =>
      simp only [renderSepBy, List.length_singleton]
      exact h x
    | cons y ys =>
      rw [show renderSepBy r1 (x :: y :: ys) = r1 x ++ ',' :: renderSepBy r1 (y :: ys) from rfl]
      rw [List.length_append, List.length_cons]
      have := h x
      simp only [List.length_cons] at ih ⊢
      omega

theorem parseCEntries_round :
    ∀ (m : List (StepId × String)) (fuel : Nat) (rest : List Char), m ≠ [] → m.length ≤ fuel →
      parseCEntries fuel (renderSepBy renderEntryC m ++ '\x7d' :: rest) = some (m, rest) := by
  intro m
  induction m with
  | nil =>
    intro fuel rest hne _
    exact absurd rfl hne
  | cons p ps ih =>
    intro fuel rest _ hlen
    obtain ⟨k, v⟩ := p
    cases fuel with
    | zero => simp at hlen
    | succ f =>
      cases ps with
      | nil =>
        rw [show renderSepBy renderEntryC [(k, v)] = renderEntryC (k, v) from rfl]
        rw [show renderEntryC (k, v) = jstr (stepStr k).data ++ ':' :: jstr v.data from rfl]
        simp only [List.append_assoc, List.cons_append]
        have hps := parseString_round (stepStr k).data (':' :: (jstr v.data ++ '\x7d' :: rest))
        have hcol : expect [':'] (':' :: (jstr v.data ++ '\x7d' :: rest)) =
            some (jstr v.data ++ '\x7d' :: rest) := rfl
        have hps2 := parseString_round v.data ('\x7d' :: rest)
        have hcomma : expect [','] ('\x7d' :: rest) = none := rfl
        have hbrace : expect ['\x7d'] ('\x7d' :: rest) = some rest := rfl
        simp only [parseCEntries, hps, strToStep_round, strToStep_str, hcol, hps2, hcomma,
          hbrace, mk_data]
      | cons q qs =>
        rw [show renderSepBy renderEntryC ((k, v) :: q :: qs) =
          renderEntryC (k, v) ++ ',' :: renderSepBy renderEntryC (q :: qs) from rfl]
        rw [show renderEntryC (k, v) = jstr (stepStr k).data ++ ':' :: jstr v.data from rfl]
        simp only [List.append_assoc, List.cons_append]
        have hps := parseString_round (stepStr k).data
          (':' :: (jstr v.data ++ ',' :: (renderSepBy renderEntryC (q :: qs) ++ '\x7d' :: rest)))
        have hcol :
            expect [':']
              (':' :: (jstr v.data ++ ',' ::
                (renderSepBy renderEntryC (q :: qs) ++ '\x7d' :: rest))) =
              some (jstr v.data ++ ',' ::
                (renderSepBy renderEntryC (q :: qs) ++ '\x7d' :: rest)) := rfl
        have hps2 := parseString_round v.data
          (',' :: (renderSepBy renderEntryC (q :: qs) ++ '\x7d' :: rest))
        have hcomma :
            expect [','] (',' :: (renderSepBy renderEntryC (q :: qs) ++ '\x7d' :: rest)) =
              some (renderSepBy renderEntryC (q :: qs) ++ '\x7d' :: rest) := rfl
        have hih := ih f rest (by simp) (by simp only [List.length_cons] at hlen ⊢; omega)
        simp only [parseCEntries, hps, strToStep_round, strToStep_str, hcol, hps2, hcomma, hih,
          mk_data, Option.map_some]
        rfl

theorem renderSepBy_entry_head (p : StepId × String) (ps : List (StepId × String)) :
    ∃ t, renderSepBy renderEntryC (p :: ps) = '"' :: t := by
  cases ps with
  | nil => exact ⟨_, rfl⟩
  | cons q qs => exact ⟨_, rfl⟩

theorem parseCompleted_round (m : List (StepId × String)) (rest : List Char) :
    parseCompleted (renderCompleted m ++ rest) = some (m, rest) := by
  unfold renderCompleted parseCompleted
  cases m with
  | nil =>
    simp only [renderSepBy, List.nil_append, List.cons_append]
    rfl
  | cons p ps =>
    obtain ⟨t, ht⟩ := renderSepBy_entry_head p ps
    rw [List.cons_append, List.append_assoc]
    rw [show (['\x7d'] : List Char) ++ rest = '\x7d' :: rest from rfl]
    rw [ht]
    have hopen : expect ['\x7b'] ('\x7b' :: (('"' :: t) ++ '\x7d' :: rest)) =
        some (('"' :: t) ++ '\x7d' :: rest) := rfl
    have hclose : expect ['\x7d'] (('"' :: t) ++ '\x7d' :: rest) = none := rfl
    simp only [hopen, hclose]
    rw [← ht]
    have hfuel :
        (p :: ps).length ≤ (renderSepBy renderEntryC (p :: ps) ++ '\x7d' :: rest).length := by
      rw [List.length_append]
      have := renderSepBy_len renderEntryC renderEntryC_len (p :: ps)
      omega
    exact parseCEntries_round (p :: ps) _ rest (by simp) hfuel

theorem parseLogEntry_round (e : LogEntry) (rest : List Char) :
    parseLogEntry (renderLogEntry e ++ rest) = some (e, rest) := by
  have h1 := parseString_round e.ts.data
    (",\"who\":".data ++ (jstr (roleStr e.who).data ++ (",\"what\":".data ++
      (jstr e.what.data ++ (['\x7d'] ++ rest)))))
  have h2 := parseString_round (roleStr e.who).data
    (",\"what\":".data ++ (jstr e.what.data ++ (['\x7d'] ++ rest)))
  have h3 := parseString_round e.what.data (['\x7d'] ++ rest)
  have h4 : expect ['\x7d'] (['\x7d'] ++ rest) = some rest := rfl
  unfold parseLogEntry renderLogEntry
  simp only [List.append_assoc]
  simp only [expect_round, h1, h2, h3, strToRole_round, strToRole_str, h4, mk_data]

theorem parseLEntries_round :
    ∀ (l : List LogEntry) (fuel : Nat) (rest : List Char), l ≠ [] → l.length ≤ fuel →
      parseLEntries fuel (renderSepBy renderLogEntry l ++ ']' :: rest) = some (l, rest) := by
  intro l
  induction l with
  | nil =>
    intro fuel rest hne _
    exact absurd rfl hne
  | cons e es ih =>
    intro fuel rest _ hlen
    cases fuel with
    | zero => simp at hlen
    | succ f =>
      cases es with
      | nil =>
        rw [show renderSepBy renderLogEntry [e] = renderLogEntry e from rfl]
        have hent := parseLogEntry_round e (']' :: rest)
        have hcomma : expect [','] (']' :: rest) = none := rfl
        have hclose : expect [']'] (']' :: rest) = some rest := rfl
        simp only [parseLEntries, hent, hcomma, hclose]
      | cons g gs =>
        rw [show renderSepBy renderLogEntry (e :: g :: gs) =
          renderLogEntry e ++ ',' :: renderSepBy renderLogEntry (g :: gs) from rfl]
        rw [List.append_assoc, List.cons_append]
        have hent := parseLogEntry_round e
          (',' :: (renderSepBy renderLogEntry (g :: gs) ++ ']' :: rest))
        have hcomma :
            expect [','] (',' :: (renderSepBy renderLogEntry (g :: gs) ++ ']' :: rest)) =
              some (renderSepBy renderLogEntry (g :: gs) ++ ']' :: rest) := rfl
        have hih := ih f rest (by simp) (by simp only [List.length_cons] at hlen ⊢; omega)
        simp only [parseLEntries, hent, hcomma, hih, Option.map_some]
        rfl

theorem renderLogEntry_head (e : LogEntry) (t : List Char) :
    ∃ t2, renderLogEntry e ++ t = '\x7b' :: t2 := ⟨_, rfl⟩

theorem parseLog_round (l : List LogEntry) (rest : List Char) :
    parseLog (renderLog l ++ rest) = some (l, rest) := by
  unfold renderLog parseLog
  cases l with
  | nil =>
    simp only [renderSepBy, List.nil_append, List.cons_append]
    rfl
  | cons e es =>
    rw [List.cons_append, List.append_assoc]
    rw [show ([']'] : List Char) ++ rest = ']' :: rest from rfl]
    have hhead : ∃ t2, renderSepBy renderLogEntry (e :: es) = '\x7b' :: t2 := by
      cases es with
      | nil =>
        rw [show renderSepBy renderLogEntry [e] = renderLogEntry e from rfl]
        exact ⟨_, rfl⟩
      | cons g gs =>
        rw [show renderSepBy renderLogEntry (e :: g :: gs) =
          renderLogEntry e ++ ',' :: renderSepBy renderLogEntry (g :: gs) from rfl]
        exact ⟨_, rfl⟩
    obtain ⟨t2, ht⟩ := hhead
    rw [ht]
    have hopen : expect ['['] ('[' :: (('\x7b' :: t2) ++ ']' :: rest)) =
        some (('\x7b' :: t2) ++ ']' :: rest) := rfl
    have hclose : expect [']'] (('\x7b' :: t2) ++ ']' :: rest) = none := rfl
    simp only [hopen, hclose]
    rw [← ht]
    have hfuel :
        (e :: es).length ≤ (renderSepBy renderLogEntry (e :: es) ++ ']' :: rest).length := by
      rw [List.length_append]
      have := renderSepBy_len renderLogEntry renderLogEntry_len (e :: es)
      omega
    exact parseLEntries_round (e :: es) _ rest (by simp) hfuel

theorem parseBool_round (b : Bool) (rest : List Char) :
    parseBool ((if b then "true".data else "false".data) ++ rest) = some (b, rest) := by
  cases b with
  | false =>
    rw [if_neg (by simp)]
    unfold parseBool
    rw [show expect "true".data ("false".data ++ rest) = none from rfl]
    rw [expect_round]
  | true =>
    rw [if_pos rfl]
    unfold parseBool
    rw [expect_round]

theorem parseBool_round2 (b : Bool) (rest : List Char) :
    parseBool ((if b = true then ['t', 'r', 'u', 'e'] else ['f', 'a', 'l', 's', 'e']) ++ rest) =
      some (b, rest) := by
  cases b
  · exact parseBool_round false rest
  · exact parseBool_round true rest

theorem parseStateC_render (s : TrackerState) : parseStateC (renderStateC s) = some s := by
  unfold renderStateC parseStateC
  simp only [List.append_assoc]
  simp only [expect_round, parseString_round, parseCompleted_round, parseLog_round,
    parseBool_round, parseBool_round2, strToStep_round, strToStep_str, mk_data, if_pos,
    reduceIte]

theorem data_mk (cs : List Char) : (String.mk cs).data = cs := rfl

/-- The complete codec round-trip: decoding the token produced by share
recovers the snapshot (the state with readonly forced true). -/
theorem decode_encode (s : TrackerState) :
    (encodeToken s).bind decodeToken = some (snapshot s) := by
  have hchain := token_chain (renderStateC (snapshot s))
  unfold encodeToken decodeToken
  cases hb : btoaC (unescapeC (encodeURIComponentC (renderStateC (snapshot s)))) with
  | none =>
    rw [hb] at hchain
    exact absurd hchain (by simp)
  | some tok =>
    rw [hb] at hchain
    rw [show ((some tok).bind fun tok => (atobC tok).bind fun b =>
      decodeURIComponentC (escapeC b)) = (atobC tok).bind fun b =>
      decodeURIComponentC (escapeC b) from rfl] at hchain
    show (match atobC tok with
      | none => none
      | some bytesStr =>
        match decodeURIComponentC (escapeC bytesStr) with
        | none => none
        | some j => parseStateC j) = some (snapshot s)
    cases ha : atobC tok with
    | none =>
      rw [ha] at hchain
      exact absurd hchain (by simp)
    | some bstr =>
      rw [ha] at hchain
      rw [show ((some bstr).bind fun b => decodeURIComponentC (escapeC b)) =
        decodeURIComponentC (escapeC bstr) from rfl] at hchain
      show (match decodeURIComponentC (escapeC bstr) with
        | none => none
        | some j => parseStateC j) = some (snapshot s)
      rw [hchain]
      exact parseStateC_render (snapshot s)

/-! ### Lemmas: the completed map and the advance operation -/

theorem getTs_cons (p : StepId × String) (l : List (StepId × String)) (k : StepId) :
    getTs (p :: l) k = if p.1 = k then some p.2 else getTs l k := rfl

theorem getTs_append (m1 m2 : List (StepId × String)) (k : StepId) (hg : getTs m1 k = none) :
    getTs (m1 ++ m2) k = getTs m2 k := by
  induction m1 with
  | nil => rfl
  | cons p m1 ih =>
    rw [getTs_cons] at hg
    rw [List.cons_append, getTs_cons]
    by_cases hp : p.1 = k
    · rw [if_pos hp] at hg
      exact absurd hg (by simp)
    · rw [if_neg hp] at hg
      rw [if_neg hp]
      exact ih hg

theorem getTs_map_same (m : List (StepId × String)) (id : StepId) (X : String)
    (h : (getTs m id).isSome = true) :
    getTs (m.map (fun p => if p.1 = id then (p.1, X) else p)) id = some X := by
  induction m with
  | nil => simp [getTs] at h
  | cons p m ih =>
    rw [List.map_cons]
    by_cases hp : p.1 = id
    · rw [if_pos hp, getTs_cons]
      rw [if_pos hp]
    · rw [if_neg hp, getTs_cons, if_neg hp]
      rw [getTs_cons, if_neg hp] at h
      exact ih h

theorem getTs_map_other (m : List (StepId × String)) (id : StepId) (X : String) (k : StepId)
    (h : k ≠ id) :
    getTs (m.map (fun p => if p.1 = id then (p.1, X) else p)) k = getTs m k := by
  induction m with
  | nil => rfl
  | cons p m ih =>
    rw [List.map_cons]
    by_cases hp : p.1 = id
    · rw [if_pos hp, getTs_cons, getTs_cons]
      have hpk : ¬(p.1 = k) := by
        rw [hp]
        exact fun he => absurd he.symm h
      rw [if_neg (by simpa using hpk), if_neg hpk]
      exact ih
    · rw [if_neg hp, getTs_cons, getTs_cons]
      by_cases hk : p.1 = k
      · rw [if_pos hk, if_pos hk]
      · rw [if_neg hk, if_neg hk]
        exact ih

theorem getTs_mem (m : List (StepId × String)) (k : StepId) (t : String)
    (h : getTs m k = some t) : (k, t) ∈ m := by
  induction m with
  | nil => simp [getTs] at h
  | cons p m ih =>
    rw [getTs_cons] at h
    by_cases hp : p.1 = k
    · rw [if_pos hp] at h
      simp only [Option.some.injEq] at h
      have hpe : p = (k, t) := by
        obtain ⟨p1, p2⟩ := p
        simp only at hp h
        rw [hp, h]
      rw [hpe]
      exact List.mem_cons_self _ _
    · rw [if_neg hp] at h
      exact List.mem_cons_of_mem _ (ih h)

theorem getTs_set_present (m : List (StepId × String)) (id : StepId) (ts v : String)
    (hg : getTs m id = some v) :
    getTs (setCompleted m id ts) id = some (if v = "" then ts else v) := by
  simp only [setCompleted, hg]
  exact getTs_map_same m id _ (by rw [hg]; rfl)

theorem getTs_set_absent (m : List (StepId × String)) (id : StepId) (ts : String)
    (hg : getTs m id = none) :
    getTs (setCompleted m id ts) id = some ts := by
  simp only [setCompleted, hg]
  rw [getTs_append m _ id hg]
  simp [getTs]

theorem getTs_append_ne (m : List (StepId × String)) (id : StepId) (ts : String) (k : StepId)
    (h : k ≠ id) : getTs (m ++ [(id, ts)]) k = getTs m k := by
  induction m with
  | nil =>
    show getTs [(id, ts)] k = getTs [] k
    rw [getTs_cons]
    rw [if_neg (fun he => absurd he.symm h)]
  | cons p m ih =>
    rw [List.cons_append, getTs_cons, getTs_cons]
    by_cases hp : p.1 = k
    · rw [if_pos hp, if_pos hp]
    · rw [if_neg hp, if_neg hp]
      exact ih

theorem getTs_set_other (m : List (StepId × String)) (id : StepId) (ts : String) (k : StepId)
    (h : k ≠ id) : getTs (setCompleted m id ts) k = getTs m k := by
  cases hg : getTs m id with
  | some v =>
    simp only [setCompleted, hg]
    exact getTs_map_other m id _ k h
  | none =>
    simp only [setCompleted, hg]
    exact getTs_append_ne m id ts k h

theorem setCompleted_vals (m : List (StepId × String)) (id : StepId) (ts : String)
    (hm : ∀ p ∈ m, p.2 ≠ "") (hts : ts ≠ "") :
    ∀ p ∈ setCompleted m id ts, p.2 ≠ "" := by
  unfold setCompleted
  cases hg : getTs m id with
  | some v =>
    intro p hp
    rw [List.mem_map] at hp
    obtain ⟨q, hq, rfl⟩ := hp
    by_cases hqid : q.1 = id
    · rw [if_pos hqid]
      by_cases hv : v = ""
      · simp [hv, hts]
      · simp [hv]
    · rw [if_neg hqid]
      exact hm q hq
  | none =>
    intro p hp
    rw [List.mem_append] at hp
    rcases hp with hp | hp
    · exact hm p hp
    · rcases List.mem_singleton.1 hp with rfl
      exact hts

theorem advanceMsg_ne (r : Role) (n : StepId) : advanceMsg r n ≠ "" := by
  cases r <;> cases n <;> decide

/-- advance on a non-readonly state with a permitted step: the exact
result shape. -/
theorem advanceOp_goes (r : Role) (now : String) (s : TrackerState) (n : StepId)
    (hr : s.readonly = false) (hn : nextFor r s.active = some n) :
    advanceOp r now s =
      { s with
        active := n
        completed := setCompleted s.completed n now
        log := s.log ++ [⟨now, r, advanceMsg r n⟩] } := by
  unfold advanceOp
  rw [hn]
  unfold setActive
  rw [hr]
  simp only [Bool.false_eq_true, if_false, reduceIte, noteOr]
  rw [if_neg (advanceMsg_ne r n)]

/-- advance with no permitted step leaves the state unchanged. -/
theorem advanceOp_stays (r : Role) (now : String) (s : TrackerState)
    (hn : nextFor r s.active = none) : advanceOp r now s = s := by
  unfold advanceOp
  rw [hn]

/-- advance on a readonly state leaves the state unchanged. -/
theorem advanceOp_readonly (r : Role) (now : String) (s : TrackerState)
    (hr : s.readonly = true) : advanceOp r now s = s := by
  unfold advanceOp
  cases hn : nextFor r s.active with
  | none => rfl
  | some n =>
    unfold setActive
    rw [hr]
    rfl

/-! ### Lemmas: the gating table, advance preservation, keys, persistence -/

theorem nextFor_gate : ∀ (r : Role) (a : StepId), nextFor r a = gateSpec r a := by
  intro r a
  cases r <;> cases a <;> rfl

theorem advanceOp_preserves (r : Role) (now : String) (s : TrackerState)
    (hg : CompletedGood s) (hn : now ≠ "") :
    CompletedGood (advanceOp r now s) ∧
    (∀ k v, getTs s.completed k = some v → getTs (advanceOp r now s).completed k = some v) := by
  cases hnx : nextFor r s.active with
  | none =>
    rw [advanceOp_stays r now s hnx]
    exact ⟨hg, fun k v h => h⟩
  | some n =>
    cases hr : s.readonly with
    | true =>
      rw [advanceOp_readonly r now s hr]
      exact ⟨hg, fun k v h => h⟩
    | false =>
      rw [advanceOp_goes r now s n hr hnx]
      have hpres : ∀ k v, getTs s.completed k = some v →
          getTs (setCompleted s.completed n now) k = some v := by
        intro k v h
        by_cases hk : k = n
        · subst hk
          rw [getTs_set_present s.completed k now v h]
          have hv : v ≠ "" := hg.2 (k, v) (getTs_mem _ _ _ h)
          rw [if_neg hv]
        · rw [getTs_set_other s.completed n now k hk]
          exact h
      refine ⟨⟨?_, ?_⟩, fun k v h => hpres k v h⟩
      · show (getTs (setCompleted s.completed n now) n).isSome = true
        cases hgn : getTs s.completed n with
        | some v => rw [getTs_set_present _ _ _ _ hgn]; rfl
        | none => rw [getTs_set_absent _ _ _ hgn]; rfl
      · exact setCompleted_vals s.completed n now hg.2 hn

theorem toKey_inj_left (i1 i2 m : String) (h : toKey i1 m = toKey i2 m) : i1 = i2 := by
  unfold toKey at h
  have hd := congrArg String.data h
  simp only [String.data_append] at hd
  have h1 := List.append_cancel_right hd
  have h2 := List.append_cancel_right h1
  have h3 := List.append_cancel_left h2
  have h4 := congrArg String.mk h3
  rwa [mk_data, mk_data] at h4

theorem toKey_inj_right (i m1 m2 : String) (h : toKey i m1 = toKey i m2) : m1 = m2 := by
  unfold toKey at h
  have hd := congrArg String.data h
  simp only [String.data_append] at hd
  have h1 := List.append_cancel_left hd
  have h2 := congrArg String.mk h1
  rwa [mk_data, mk_data] at h2

theorem persistStep_keeps (store : String → Option String) (st : TrackerState)
    (k : String) (c : String) (hk : store k = some c) :
    (persistStep store st k).isSome = true := by
  unfold persistStep
  by_cases h1 : st.readonly = true
  · rw [if_pos h1, hk]; rfl
  · rw [if_neg h1]
    by_cases h2 : st.incidentId = "" ∨ st.machineId = ""
    · rw [if_pos h2, hk]; rfl
    · rw [if_neg h2]
      by_cases h3 : k = toKey st.incidentId st.machineId
      · rw [if_pos h3]; rfl
      · rw [if_neg h3, hk]; rfl

theorem persistStep_writes (store : String → Option String) (s : TrackerState)
    (hr : s.readonly = false) (hi : s.incidentId ≠ "") (hm : s.machineId ≠ "") :
    persistStep store s (toKey s.incidentId s.machineId) = some (renderState s) ∧
    ∀ k, k ≠ toKey s.incidentId s.machineId → persistStep store s k = store k := by
  unfold persistStep
  rw [if_neg (by rw [hr]; exact Bool.false_ne_true), if_neg (not_or.mpr ⟨hi, hm⟩)]
  exact ⟨by rw [if_pos rfl], fun k hk => by rw [if_neg hk]⟩

/-! ### The claims -/

/-- C2 (amended): on a read-only state, advance and setActive are no-ops,
but the context-field edit handlers are not gated (they take effect
regardless of readonly) and reset is not gated either: declining the
confirm leaves the state, and a confirmed reset rebuilds the progress
fields and clears readonly even on a read-only state. -/
theorem claim_C2 (s : TrackerState) (hr : s.readonly = true) (r : Role) (id : StepId)
    (who : Role) (note : Option String) (now : String) (f : FieldName) (v : String) :
    advanceOp r now s = s ∧ setActive id who note now s = s ∧
    getField f (setField f v s) = v ∧
    (resetOp true now s).readonly = false ∧ resetOp false now s = s := by
  refine ⟨advanceOp_readonly r now s hr, ?_, ?_, rfl, rfl⟩
  · unfold setActive
    rw [if_pos hr]
  · cases f <;> rfl

/-- C2 counterexample: the claim as stated is false: on a read-only
state, setField changes the state and a confirmed reset changes the
state (it even clears the readonly flag). -/
theorem claim_C2_counterexample :
    exSnapshotState.readonly = true ∧
    setField FieldName.incidentId "INC-8" exSnapshotState ≠ exSnapshotState ∧
    resetOp true "t9" exSnapshotState ≠ exSnapshotState := by
  refine ⟨rfl, ?_, ?_⟩ <;> decide

/-- C2 witness: the amended claim evaluated on the read-only example
snapshot state. -/
theorem claim_C2_witness :
    advanceOp Role.operator "t9" exSnapshotState = exSnapshotState ∧
    setActive StepId.done Role.operator none "t9" exSnapshotState = exSnapshotState ∧
    getField FieldName.incidentId
      (setField FieldName.incidentId "INC-8" exSnapshotState) = "INC-8" ∧
    (resetOp true "t9" exSnapshotState).readonly = false ∧
    resetOp false "t9" exSnapshotState = exSnapshotState :=
  claim_C2 exSnapshotState rfl Role.operator StepId.done Role.operator none "t9"
    FieldName.incidentId "INC-8"

/-- C3: nextFor agrees with the spec's gating table everywhere: the
operator gets the linear successor, it gets it_ok exactly from
validated / it_sent / it_ok, hob gets hob_ok exactly from it_ok /
hob_sent / hob_ok, and no role has a transition from done. -/
theorem claim_C3 :
    (∀ (r : Role) (a : StepId), nextFor r a = gateSpec r a) ∧
    (∀ r : Role, nextFor r StepId.done = none) :=
  ⟨nextFor_gate, fun r => by cases r <;> rfl⟩

/-- C4: decoding the token encoded from any state s yields exactly s
with readonly forced to true (in particular encoding never fails). -/
theorem claim_C4 (s : TrackerState) :
    (encodeToken s).bind decodeToken = some { s with readonly := true } :=
  decode_encode s

/-- C5: on a non-readonly state, advance is all-or-nothing: when the
gating table permits no step the state is left identical (the denial
alert mutates nothing), and when it permits n the whole update happens
at once: active becomes n, n's first-arrival timestamp is recorded, and
exactly one audit entry is appended. -/
theorem claim_C5 (r : Role) (now : String) (s : TrackerState) (hr : s.readonly = false) :
    (gateSpec r s.active = none → advanceOp r now s = s) ∧
    (∀ n, gateSpec r s.active = some n →
      advanceOp r now s =
        { s with
          active := n
          completed := setCompleted s.completed n now
          log := s.log ++ [⟨now, r, advanceMsg r n⟩] }) := by
  constructor
  · intro h
    exact advanceOp_stays r now s ((nextFor_gate r s.active).trans h)
  · intro n h
    exact advanceOp_goes r now s n hr ((nextFor_gate r s.active).trans h)

/-- C5 witness: the operator advancing the example mid-flow state from
validated lands on it_sent with exactly the claimed update. -/
theorem claim_C5_witness :
    advanceOp Role.operator "t2" exState =
      { exState with
        active := StepId.it_sent
        completed := setCompleted exState.completed StepId.it_sent "t2"
        log := exState.log ++ [⟨"t2", Role.operator, advanceMsg Role.operator StepId.it_sent⟩] } :=
  (claim_C5 Role.operator "t2" exState rfl).2 StepId.it_sent rfl

/-- C6: across any sequence of advance operations with non-empty
timestamps, starting from a state whose completed map is healthy, the
invariant is preserved (the active step always has an entry and no entry
is empty) and every timestamp already recorded is never overwritten or
removed. -/
theorem claim_C6 (ops : List (Role × String)) (s : TrackerState)
    (hg : CompletedGood s) (hops : ∀ p ∈ ops, p.2 ≠ "") :
    CompletedGood (advSeq ops s) ∧
    ∀ k v, getTs s.completed k = some v → getTs (advSeq ops s).completed k = some v := by
  induction ops generalizing s with
  | nil => exact ⟨hg, fun k v h => h⟩
  | cons op ops ih =>
    obtain ⟨r, now⟩ := op
    have h1 := advanceOp_preserves r now s hg (hops (r, now) (by simp))
    have h2 := ih (advanceOp r now s) h1.1 (fun p hp => hops p (by simp [hp]))
    exact ⟨h2.1, fun k v h => h2.2 k v (h1.2 k v h)⟩

/-- C6 witness: after the operator and then IT advance the example
state, the timestamp recorded for validated is still its original
value. -/
theorem claim_C6_witness :
    getTs (advSeq [(Role.operator, "t2"), (Role.it, "t3")] exState).completed
      StepId.validated = some "t1" :=
  (claim_C6 [(Role.operator, "t2"), (Role.it, "t3")] exState (by decide) (by decide)).2
    StepId.validated "t1" rfl

/-- C1: the claim is right and the code is wrong: bootstrap can return a
seed carrying full progress fields (here the cached snapshot state found
under its key), yet the finalization step initialFrom discards the
seed's active, completed and log, rebuilding them fresh instead of
default-filling only the missing fields. -/
theorem claim_C1 :
    bootstrap "" (some "INC-7") (some "M-9") none none none exStore =
      seedOfState exSnapshotState ∧
    (seedOfState exSnapshotState).active = some StepId.done ∧
    (seedOfState exSnapshotState).completed = some exCompleted ∧
    (seedOfState exSnapshotState).log = some exLog ∧
    (initialFrom (seedOfState exSnapshotState) "t9").active ≠ StepId.done ∧
    (initialFrom (seedOfState exSnapshotState) "t9").completed ≠ exCompleted ∧
    (initialFrom (seedOfState exSnapshotState) "t9").log ≠ exLog := by
  refine ⟨?_, rfl, rfl, rfl, by decide, by decide, by decide⟩
  have hstore : exStore (toKey "INC-7" "M-9") = some (renderState exSnapshotState) := by
    unfold exStore
    rw [if_pos rfl]
  have hparse : parseState (renderState exSnapshotState) = some exSnapshotState := by
    show parseStateC (String.mk (renderStateC exSnapshotState)).data = some exSnapshotState
    rw [data_mk]
    exact parseStateC_render exSnapshotState
  simp only [bootstrap, Option.getD_some]
  rw [show (if stripStatePrefix "" = "" then (none : Option TrackerState)
      else decodeToken (stripStatePrefix "")) = none from rfl]
  simp only [hstore, hparse]

/-- C7: when the fragment token fails to decode, bootstrap falls
through: with no cache entry under the key of the query identifiers it
returns the URL-context seed; with a cache entry that fails to parse it
also returns the URL-context seed; with a parsable cache entry it
returns that state as seed; and the URL-context seed carries no progress
fields. -/
theorem claim_C7 (hash : String) (qi qm qu qb qn : Option String)
    (store : String → Option String)
    (hd : decodeToken (stripStatePrefix hash) = none) :
    (store (toKey (qi.getD "") (qm.getD "")) = none →
      bootstrap hash qi qm qu qb qn store =
        urlSeed (qi.getD "") (qm.getD "") (qu.getD "") (qb.getD "") (qn.getD "")) ∧
    (∀ cached, store (toKey (qi.getD "") (qm.getD "")) = some cached →
      parseState cached = none →
      bootstrap hash qi qm qu qb qn store =
        urlSeed (qi.getD "") (qm.getD "") (qu.getD "") (qb.getD "") (qn.getD "")) ∧
    (∀ cached st, store (toKey (qi.getD "") (qm.getD "")) = some cached →
      parseState cached = some st →
      bootstrap hash qi qm qu qb qn store = seedOfState st) ∧
    (∀ i m u b n, (urlSeed i m u b n).active = none ∧
      (urlSeed i m u b n).completed = none ∧ (urlSeed i m u b n).log = none) := by
  have htok : (if stripStatePrefix hash = "" then none
      else decodeToken (stripStatePrefix hash)) = (none : Option TrackerState) := by
    by_cases ht : stripStatePrefix hash = ""
    · rw [if_pos ht]
    · rw [if_neg ht]
      exact hd
  refine ⟨?_, ?_, ?_, fun i m u b n => ⟨rfl, rfl, rfl⟩⟩
  · intro hs
    simp only [bootstrap, htok, hs]
  · intro cached hs hp
    simp only [bootstrap, htok, hs, hp]
  · intro cached st hs hp
    simp only [bootstrap, htok, hs, hp]

/-- C7 witness: a malformed token in the fragment with an empty store
falls through to the URL-context seed. -/
theorem claim_C7_witness :
    bootstrap "#state=!!!" none none none none none exEmptyStore = urlSeed "" "" "" "" "" :=
  (claim_C7 "#state=!!!" none none none none none exEmptyStore rfl).1 rfl

/-- C8 (amended): reset runs only after confirmation (declining changes
nothing); when confirmed it keeps the five context fields, rebuilds
active and completed exactly as fresh creation does and clears readonly,
but its single log entry reads "Tracker reset" where fresh creation
writes "Tracker created", so the log is not the fresh-creation value. -/
theorem claim_C8 (s : TrackerState) (now : String) :
    resetOp false now s = s ∧
    (resetOp true now s).incidentId = s.incidentId ∧
    (resetOp true now s).machineId = s.machineId ∧
    (resetOp true now s).machineName = s.machineName ∧
    (resetOp true now s).upn = s.upn ∧
    (resetOp true now s).bu = s.bu ∧
    (resetOp true now s).active = (initialFrom emptySeed now).active ∧
    (resetOp true now s).completed = (initialFrom emptySeed now).completed ∧
    (resetOp true now s).readonly = false ∧
    (resetOp true now s).log = [⟨now, Role.operator, "Tracker reset"⟩] ∧
    (initialFrom emptySeed now).log = [⟨now, Role.operator, "Tracker created"⟩] :=
  ⟨rfl, rfl, rfl, rfl, rfl, rfl, rfl, rfl, rfl, rfl, rfl⟩

/-- C8 counterexample: a confirmed reset does not re-initialize the log
to the value produced at fresh creation: active and completed match the
fresh-creation values but the log entry text differs. -/
theorem claim_C8_counterexample :
    (resetOp true "t0" exState).active = (initialFrom emptySeed "t0").active ∧
    (resetOp true "t0" exState).completed = (initialFrom emptySeed "t0").completed ∧
    (resetOp true "t0" exState).log ≠ (initialFrom emptySeed "t0").log := by decide

/-- C9: the persistence step writes the serialized state under the key
derived from (incidentId, machineId) exactly when readonly is false and
both identifiers are non-empty, touching no other key; in every other
case the store is returned unchanged. -/
theorem claim_C9 (store : String → Option String) (s : TrackerState) :
    (s.readonly = false → s.incidentId ≠ "" → s.machineId ≠ "" →
      persistStep store s (toKey s.incidentId s.machineId) = some (renderState s) ∧
      ∀ k, k ≠ toKey s.incidentId s.machineId → persistStep store s k = store k) ∧
    (s.readonly = true → persistStep store s = store) ∧
    (s.incidentId = "" → persistStep store s = store) ∧
    (s.machineId = "" → persistStep store s = store) := by
  refine ⟨fun hr hi hm => persistStep_writes store s hr hi hm, ?_, ?_, ?_⟩
  · intro hr
    unfold persistStep
    rw [if_pos hr]
  · intro hi
    unfold persistStep
    by_cases hr : s.readonly = true
    · rw [if_pos hr]
    · rw [if_neg hr, if_pos (Or.inl hi)]
  · intro hm
    unfold persistStep
    by_cases hr : s.readonly = true
    · rw [if_pos hr]
    · rw [if_neg hr, if_pos (Or.inr hm)]

/-- C10: in a non-readonly session with both identifiers set, changing
incidentId or machineId through setField moves the persistence key:
subsequent writes land on the new key, the record under the old key is
returned unchanged, and the persistence step never removes any record
from the store whatever the state. -/
theorem claim_C10 (store : String → Option String) (s : TrackerState) (f : FieldName)
    (v : String) (hf : f = FieldName.incidentId ∨ f = FieldName.machineId)
    (hr : s.readonly = false) (hi : s.incidentId ≠ "") (hm : s.machineId ≠ "")
    (hv : v ≠ "") (hch : getField f s ≠ v) :
    toKey (setField f v s).incidentId (setField f v s).machineId ≠
      toKey s.incidentId s.machineId ∧
    persistStep store (setField f v s)
      (toKey (setField f v s).incidentId (setField f v s).machineId) =
      some (renderState (setField f v s)) ∧
    persistStep store (setField f v s) (toKey s.incidentId s.machineId) =
      store (toKey s.incidentId s.machineId) ∧
    (∀ st k c, store k = some c → (persistStep store st k).isSome = true) := by
  have hkey : toKey (setField f v s).incidentId (setField f v s).machineId ≠
      toKey s.incidentId s.machineId := by
    rcases hf with hf | hf <;> subst hf
    · intro he
      exact hch (toKey_inj_left v s.incidentId s.machineId he).symm
    · intro he
      exact hch (toKey_inj_right s.incidentId v s.machineId he).symm
  have hw := persistStep_writes store (setField f v s)
    (by rcases hf with hf | hf <;> subst hf <;> exact hr)
    (by rcases hf with hf | hf <;> subst hf <;> first | exact hv | exact hi)
    (by rcases hf with hf | hf <;> subst hf <;> first | exact hv | exact hm)
  exact ⟨hkey, hw.1, hw.2 _ (fun he => hkey he.symm), fun st k c hk => persistStep_keeps store st k c hk⟩

/-- C10 witness: renaming the incident on the example state moves the
key, and the old record in the example store is returned unchanged. -/
theorem claim_C10_witness :
    persistStep exStore2 (setField FieldName.incidentId "INC-2" exState)
      (toKey exState.incidentId exState.machineId) =
      exStore2 (toKey exState.incidentId exState.machineId) :=
  (claim_C10 exStore2 exState FieldName.incidentId "INC-2" (Or.inl rfl) rfl
    (by decide) (by decide) (by decide) (by decide)).2.2.1

end UnisoV2
